import Mathlib

/-!
A shallow embedding of the gift-ledger logic of `src/gift_tracker_app.py`
(pandas/Streamlit).  Tabular data is modelled as a header plus a list of
columns of dynamically typed cells.  Python floats are modelled as exact
rationals (`Rat`); `NaN`/`inf` float literals are outside the model, so a
failed numeric parse is `none`.  Machine integers are `Int` (Python ints are
unbounded, so no wraparound is needed).
-/

namespace GiftTracker

/-- A dynamically typed cell value, as held in a pandas `DataFrame` column
(`object`, `str`, `int64`, `float64` or `bool` dtype).  A missing value
(`NaN` / `None`) is `null`. -/
inductive Value where
  | null : Value
  | str : String → Value
  | int : Int → Value
  | float : Rat → Value
  | bool : Bool → Value
deriving DecidableEq, Repr

/-- The decimal digit character for a digit `d < 10` (`'9'` on out-of-range
input, which never occurs). -/
def digitChar (d : Nat) : Char :=
  match d with
  | 0 => '0'
  | 1 => '1'
  | 2 => '2'
  | 3 => '3'
  | 4 => '4'
  | 5 => '5'
  | 6 => '6'
  | 7 => '7'
  | 8 => '8'
  | _ => '9'

/-- The numeric value of a decimal digit character. -/
def digitVal (c : Char) : Option Nat :=
  if '0' ≤ c ∧ c ≤ '9' then some (c.toNat - 48) else none

/-- `true` exactly on the characters `'0'`–`'9'`. -/
def isDig (c : Char) : Bool := (digitVal c).isSome

/-- Fuelled rendering of a natural number in decimal (most significant digit
first).  Fuel `n + 1` always suffices for `n`. -/
def renderNatAux : Nat → Nat → List Char
  | 0, _ => []
  | fuel + 1, n =>
    if n < 10 then [digitChar n]
    else renderNatAux fuel (n / 10) ++ [digitChar (n % 10)]

/-- Decimal rendering of a natural number, the model of Python `str(n)` for
`n ≥ 0`. -/
def renderNatChars (n : Nat) : List Char := renderNatAux (n + 1) n

/-- Fold a digit string into the natural number it denotes (`acc` carries
digits already read). -/
def natOfDigitsAux (acc : Nat) : List Char → Nat
  | [] => acc
  | c :: cs => natOfDigitsAux (acc * 10 + (digitVal c).getD 0) cs

/-- The natural number denoted by a list of decimal digit characters. -/
def natOfDigits (l : List Char) : Nat := natOfDigitsAux 0 l

/-- Decimal rendering of a Python integer, the model of `str(n)`. -/
def intChars (n : Int) : List Char :=
  (if n < 0 then ['-'] else []) ++ renderNatChars n.natAbs

/-- ASCII whitespace, the model of the characters stripped by Python's
`str.strip()` and skipped by the numeric parsers. -/
def isSpace (c : Char) : Bool :=
  c == ' ' || c == '\t' || c == '\n' || c == '\r'

/-- Strip leading and trailing whitespace from a character list (the model of
Python `str.strip()`). -/
def stripChars (l : List Char) : List Char :=
  ((l.dropWhile isSpace).reverse.dropWhile isSpace).reverse

/-- Consume an optional leading sign; returns `(negative, rest)`. -/
def parseSignum : List Char → Bool × List Char
  | [] => (false, [])
  | c :: cs =>
    if c == '-' then (true, cs)
    else if c == '+' then (false, cs)
    else (false, c :: cs)

/-- Parse the optional exponent suffix of a numeric literal (`e`/`E`, an
optional sign, then digits); `some 0` on empty input, `none` on trailing
garbage. -/
def parseExpPart : List Char → Option Int
  | [] => some 0
  | c :: cs =>
    if c == 'e' || c == 'E' then
      let sgn := parseSignum cs
      let spanned := sgn.2.span isDig
      if spanned.1.isEmpty || !spanned.2.isEmpty then none
      else some (if sgn.1 then -(natOfDigits spanned.1 : Int) else (natOfDigits spanned.1 : Int))
    else none

/-- Assemble a rational from sign, decimal digits `m`, fractional length `k`
and exponent `e`: the value `± m / 10 ^ k * 10 ^ e`, built with `mkRat` so
that it normalizes (and kernel-reduces). -/
def ratOfParts (neg : Bool) (m : Nat) (k : Nat) (e : Int) : Rat :=
  let n : Int := if neg then -(m : Int) else (m : Int)
  match e with
  | .ofNat a => mkRat (n * 10 ^ a) (10 ^ k)
  | .negSucc a => mkRat n (10 ^ (k + a + 1))

/-- Parse a decimal numeric literal (optional sign, digits, optional `.` and
fraction digits, optional exponent), the model of the conversion performed by
`pd.to_numeric` on a string.  Surrounding whitespace is allowed; anything
else yields `none` (in pandas, `errors="coerce"` turns this into `NaN`). -/
def parseNumericChars (l : List Char) : Option Rat :=
  let cs := stripChars l
  let sgn := parseSignum cs
  let ip := sgn.2.span isDig
  match ip.2 with
  | '.' :: rest2 =>
    let fp := rest2.span isDig
    if ip.1.isEmpty && fp.1.isEmpty then none
    else
      match parseExpPart fp.2 with
      | some e => some (ratOfParts sgn.1 (natOfDigits (ip.1 ++ fp.1)) fp.1.length e)
      | none => none
  | _ =>
    if ip.1.isEmpty then none
    else
      match parseExpPart ip.2 with
      | some e => some (ratOfParts sgn.1 (natOfDigits ip.1) 0 e)
      | none => none

/-- Fuelled multiplicity of a prime `p` in `n` (number of times `p` divides
`n`); fuel `n` suffices. -/
def pMultAux (p : Nat) : Nat → Nat → Nat
  | 0, _ => 0
  | fuel + 1, n => if n % p == 0 && n != 0 && p != 1 then 1 + pMultAux p fuel (n / p) else 0

/-- Multiplicity of `p` in `n`. -/
def pMult (p n : Nat) : Nat := pMultAux p n n

/-- A decimal exponent `k ≥ 1` such that `q.den ∣ 10 ^ k` whenever the
denominator of `q` has only the prime factors 2 and 5 (i.e. whenever `q` is
exactly representable as a finite decimal, as every Python float is). -/
def decExp (q : Rat) : Nat := max 1 (pMult 2 q.den + pMult 5 q.den)

/-- `q` is a finite decimal.  Every value a Python `float` can hold satisfies
this (binary floats are dyadic rationals). -/
def IsDecRat (q : Rat) : Prop := q.den ∣ 10 ^ decExp q

instance (q : Rat) : Decidable (IsDecRat q) := by
  unfold IsDecRat
  infer_instance

/-- Decimal rendering of a float, the model of Python `str`/`repr` on a
float and of the text `df.to_csv` writes for a float cell: sign, integer
part, `'.'`, then `decExp q` fraction digits (left padded with zeros).
Exact whenever `IsDecRat q`; Python prints the shortest form (`0.3` rather
than `0.30`) but every form parses back to the same value. -/
def floatChars (q : Rat) : List Char :=
  let k := decExp q
  let m := q.num.natAbs * 10 ^ k / q.den
  let frac := renderNatChars (m % 10 ^ k)
  (if q.num < 0 then ['-'] else []) ++
    renderNatChars (m / 10 ^ k) ++
      '.' :: (List.replicate (k - frac.length) '0' ++ frac)

/-- The model of Python `str(x)` on a cell value (used by
`.astype(str)`; a `NaN` prints as `"nan"`, though the code always fills
nulls before stringifying). -/
def pyStr : Value → String
  | .null => "nan"
  | .str s => s
  | .int n => String.mk (intChars n)
  | .float q => String.mk (floatChars q)
  | .bool b => if b then "True" else "False"

/-- The model of `pd.to_numeric(-, errors="coerce")` on one cell: numbers
pass through, booleans become 0/1, strings are parsed, everything else
(including `NaN`) becomes `none`. -/
def toNumeric : Value → Option Rat
  | .null => none
  | .str s => parseNumericChars s.data
  | .int n => some (n : Rat)
  | .float q => some q
  | .bool b => some (if b then 1 else 0)

/-- Truncation of a rational towards zero, the model of `.astype(int)` on a
float (and of Python `int(x)`). -/
def truncToInt (q : Rat) : Int := Int.tdiv q.num (q.den : Int)

/-- The wall-clock inputs of `ensure_df`: `date.today().isoformat()` and
`datetime.now().year`, passed explicitly so the embedding is pure. -/
structure Today where
  todayISO : String
  curYear : Int
deriving DecidableEq, Repr

/-- The canonical schema, `COLUMNS` in the source. -/
def COLUMNS : List String :=
  ["date", "year", "recipient", "occasion", "idea", "budget", "purchased", "purchased_cost"]

/-- A pandas `DataFrame`: column names plus one list of cells per column
(in the same order). -/
structure Table where
  header : List String
  columns : List (List Value)
deriving DecidableEq, Repr

/-- Number of rows (`len(df)`): the length of the first column, 0 for a
column-free frame. -/
def Table.nrows (t : Table) : Nat :=
  match t.columns with
  | [] => 0
  | c :: _ => c.length

/-- Position-aligned first-match column lookup (`df[c]`). -/
def lookupCol : List String → List (List Value) → String → Option (List Value)
  | [], _, _ => none
  | _, [], _ => none
  | h :: hs, col :: cols, c => if h = c then some col else lookupCol hs cols c

/-- The column named `c`, if present. -/
def Table.colQ (t : Table) (c : String) : Option (List Value) :=
  lookupCol t.header t.columns c

/-- Cell in column `c`, row `i` (`null` when out of range). -/
def Table.cellAt (t : Table) (c : String) (i : Nat) : Value :=
  ((t.colQ c).getD []).getD i .null

/-- The well-formedness the pandas frames in this program always have:
column names are distinct, names and column data align, and all columns
have the same length.  (A frame with duplicate column names behaves
differently under `df[c]` and is outside this model.) -/
def Table.wf (t : Table) : Prop :=
  t.header.Nodup ∧ t.header.length = t.columns.length ∧
    ∀ col ∈ t.columns, col.length = t.nrows

instance (t : Table) : Decidable t.wf := by
  unfold Table.wf
  infer_instance

/-- The fill value used for a missing column (`ensure_df`, lines 52–63 of the
source: 0.0 for the money columns, `False` for `purchased`, the current year
for `year`, today's ISO date for `date`, `""` otherwise). -/
def defaultFor (today : Today) (c : String) : Value :=
  if c = "budget" ∨ c = "purchased_cost" then .float 0
  else if c = "purchased" then .bool false
  else if c = "year" then .int today.curYear
  else if c = "date" then .str today.todayISO
  else .str ""

/-- `df["date"].fillna("").astype(str)` on one cell (line 66): a null becomes
the empty string, anything else is stringified — an unparseable date is kept
verbatim, never replaced. -/
def coerceDateCell : Value → String
  | .null => ""
  | v => pyStr v

/-- `pd.to_numeric(df["year"], errors="coerce").fillna(year).astype(int)` on
one cell (line 67). -/
def coerceYearCell (today : Today) (v : Value) : Int :=
  match toNumeric v with
  | some q => truncToInt q
  | none => today.curYear

/-- `pd.to_numeric(df[col], errors="coerce").fillna(0.0).astype(float)` on
one cell (lines 68–69), for `budget` and `purchased_cost`. -/
def coerceMoneyCell (v : Value) : Rat :=
  (toNumeric v).getD 0

/-- `df["purchased"].fillna(False).astype(bool)` on one cell (line 70):
nulls become `False`, every other value becomes its Python truthiness — so
the string `"False"`, being non-empty, becomes `True`. -/
def coercePurchasedCell : Value → Bool
  | .null => false
  | .str s => !(s == "")
  | .int n => !(n == 0)
  | .float q => !(q == 0)
  | .bool b => b

/-- `df[col].fillna("").astype(str)` on one cell (lines 71–72), for the text
columns `recipient`, `occasion`, `idea`. -/
def coerceTextCell : Value → String
  | .null => ""
  | v => pyStr v

/-- The per-column cell coercion of `ensure_df` (lines 64–72), dispatched on
the canonical column name. -/
def cellCoerce (today : Today) (c : String) (v : Value) : Value :=
  if c = "year" then .int (coerceYearCell today v)
  else if c = "budget" ∨ c = "purchased_cost" then .float (coerceMoneyCell v)
  else if c = "purchased" then .bool (coercePurchasedCell v)
  else if c = "date" then .str (coerceDateCell v)
  else .str (coerceTextCell v)

/-- The "add missing" loop of `ensure_df` (lines 52–63): each canonical
column not yet present is appended, filled with `nrows` copies of its
default (`nrows` is fixed before the loop, as `len(df)` is in pandas). -/
def addMissingCols (today : Today) (nrows : Nat) : List String → Table → Table
  | [], t => t
  | c :: cs, t =>
    addMissingCols today nrows cs
      (if c ∈ t.header then t
       else ⟨t.header ++ [c], t.columns ++ [List.replicate nrows (defaultFor today c)]⟩)

/-- The schema normalizer `ensure_df` (lines 50–73): add the missing
canonical columns, select the canonical columns in canonical order
(`df[COLUMNS]`), then coerce each column cell-wise.  Total: it cannot
raise. -/
def ensure_df (today : Today) (t : Table) : Table :=
  ⟨COLUMNS, COLUMNS.map fun c =>
    (((addMissingCols today t.nrows COLUMNS t).colQ c).getD []).map (cellCoerce today c)⟩

/-- One normalized gift record — a row of a normalized frame, with the
declared field types of §3 of the spec. -/
structure GiftRecord where
  date : String
  year : Int
  recipient : String
  occasion : String
  idea : String
  budget : Rat
  purchased : Bool
  purchased_cost : Rat
deriving DecidableEq, Repr

instance : Inhabited GiftRecord :=
  ⟨⟨"", 0, "", "", "", 0, false, 0⟩⟩

/-- The model of Python `str.lower()` (ASCII case folding; the examples in
the spec and the claims are ASCII). -/
def lowerStr (s : String) : String := String.mk (s.data.map Char.toLower)

/-- A token of the regular-expression fragment this model covers: a literal
character or the `.` wildcard.  `df.str.contains(pat)` compiles `pat` with
Python's `re` (regex semantics by default); the theorems below only ever
apply patterns made of literals and dots, and carry explicit
metacharacter-freeness hypotheses where literal behaviour is asserted. -/
inductive RToken where
  | lit : Char → RToken
  | dot : RToken
deriving DecidableEq, Repr

/-- Compile a pattern of the modelled fragment: `.` is the wildcard, every
other character matches itself. -/
def tokenOf (c : Char) : RToken := if c = '.' then .dot else .lit c

/-- Python regex metacharacters; a search string containing none of these is
matched literally by `re`. -/
def isRegexMeta (c : Char) : Bool :=
  c == '.' || c == '^' || c == '$' || c == '*' || c == '+' || c == '?' ||
    c == Char.ofNat 123 || c == Char.ofNat 125 || c == '[' || c == ']' ||
      c == '\\' || c == '|' || c == '(' || c == ')'

/-- Match a token list against a prefix of the text (`.` matches any
character except a newline, as in `re` without `DOTALL`). -/
def matchHere : List RToken → List Char → Bool
  | [], _ => true
  | _ :: _, [] => false
  | .lit c :: ts, x :: xs => c == x && matchHere ts xs
  | .dot :: ts, x :: xs => !(x == '\n') && matchHere ts xs

/-- Match the token list at some position of the text (`re.search`). -/
def searchFrom (ts : List RToken) : List Char → Bool
  | [] => matchHere ts []
  | x :: xs => matchHere ts (x :: xs) || searchFrom ts xs

/-- The model of `series.str.contains(pat)` on one string: `re.search` of
the compiled pattern. -/
def regexSearch (pat s : String) : Bool :=
  searchFrom (pat.data.map tokenOf) s.data

/-- `needle` is a prefix of the text. -/
def begWith : List Char → List Char → Bool
  | [], _ => true
  | _ :: _, [] => false
  | a :: as_, b :: bs => a == b && begWith as_ bs

/-- Literal (plain substring) containment — the matching the spec asserts. -/
def hasSub (needle : List Char) : List Char → Bool
  | [] => needle.isEmpty
  | x :: xs => begWith needle (x :: xs) || hasSub needle xs

/-- The filter controls of the sidebar (lines 112–118): the selected years,
the two raw text inputs, and the unpurchased-only checkbox. -/
structure FilterSpec where
  yearSel : List Int
  recInput : String
  occInput : String
  onlyUnpurchased : Bool
deriving DecidableEq, Repr

/-- `text_input(...).strip().lower()` (lines 115 and 117). -/
def uiNeedle (s : String) : String := lowerStr (String.mk (stripChars s.data))

/-- The boolean mask built in lines 120–126: start from
`df["year"].isin(f_year)`, then AND in the recipient and occasion contains
masks when their needles are non-empty, then AND in `~df["purchased"]` when
the checkbox is set. -/
def maskOf (l : List GiftRecord) (fs : FilterSpec) : List Bool :=
  let f_rec := uiNeedle fs.recInput
  let f_occ := uiNeedle fs.occInput
  let m1 := l.map fun r => fs.yearSel.contains r.year
  let m2 :=
    if f_rec ≠ "" then List.zipWith and m1 (l.map fun r => regexSearch f_rec (lowerStr r.recipient))
    else m1
  let m3 :=
    if f_occ ≠ "" then List.zipWith and m2 (l.map fun r => regexSearch f_occ (lowerStr r.occasion))
    else m2
  if fs.onlyUnpurchased then List.zipWith and m3 (l.map fun r => !r.purchased) else m3

/-- `df.loc[mask]`: keep the rows whose mask entry is `true`, in order. -/
def applyMask : List GiftRecord → List Bool → List GiftRecord
  | [], _ => []
  | _ :: _, [] => []
  | r :: rs, b :: bs => if b then r :: applyMask rs bs else applyMask rs bs

/-- The filtered view `fdf = df.loc[mask]` (line 128). -/
def filteredView (l : List GiftRecord) (fs : FilterSpec) : List GiftRecord :=
  applyMask l (maskOf l fs)

/-- The row-level filter predicate the mask pipeline computes (regex
containment, per the code); the referent of the refinement theorem for the
filter engine. -/
def passesRegex (fs : FilterSpec) (r : GiftRecord) : Bool :=
  (fs.yearSel.contains r.year &&
      (uiNeedle fs.recInput == "" || regexSearch (uiNeedle fs.recInput) (lowerStr r.recipient)) &&
    (uiNeedle fs.occInput == "" || regexSearch (uiNeedle fs.occInput) (lowerStr r.occasion))) &&
    (!fs.onlyUnpurchased || !r.purchased)

/-- The positions of the rows of the filtered view inside the full ledger —
`fdf.index` (the pandas index labels survive `df.loc[mask]`, and the session
frame always carries the default `RangeIndex`, so labels are positions). -/
def trueIdxs (mask : List Bool) : List Nat :=
  (mask.zip (List.range mask.length)).filterMap fun bj => if bj.1 then some bj.2 else none

/-- `st.session_state.gifts.loc[edited.index, ["purchased", "purchased_cost"]]
= edited[...]` (line 190), walking the ledger by position: row `j0 + i` of
the result is row `i` of the input, with `purchased`/`purchased_cost`
replaced when `j0 + i` is an edited index. -/
def applyEditsFrom (j0 : Nat) (pend : List (Nat × (Bool × Rat))) : List GiftRecord → List GiftRecord
  | [] => []
  | r :: rs =>
    (match pend.lookup j0 with
     | some pv => { r with purchased := pv.1, purchased_cost := pv.2 }
     | none => r) :: applyEditsFrom (j0 + 1) pend rs

/-- Write edited `purchased`/`purchased_cost` values back into the full
ledger at the given index labels. -/
def applyEdits (gifts : List GiftRecord) (idxs : List Nat) (vals : List (Bool × Rat)) : List GiftRecord :=
  applyEditsFrom 0 (idxs.zip vals) gifts

/-- The whole inline-edit path (lines 176–190): the editable view is the
filtered view (with all columns but `purchased`/`purchased_cost` disabled
and `num_rows="fixed"`), and the edited values are written back by index. -/
def editPurchases (gifts : List GiftRecord) (fs : FilterSpec) (vals : List (Bool × Rat)) : List GiftRecord :=
  applyEdits gifts (trueIdxs (maskOf gifts fs)) vals

/-- The default `na_values` of `pd.read_csv`: a field equal to one of these
strings is read as `NaN`. -/
def NA_SET : List String :=
  ["", "#N/A", "#N/A N/A", "#NA", "-1.#IND", "-1.#QNAN", "-NaN", "-nan",
   "1.#IND", "1.#QNAN", "<NA>", "N/A", "NA", "NULL", "NaN", "None", "n/a",
   "nan", "null"]

/-- `none` when the raw field is one of the NA literals. -/
def naLift (l : List Char) : Option (List Char) :=
  if NA_SET.contains (String.mk l) then none else some l

/-- The raw field is an integer literal (optional sign, then digits). -/
def isIntLikeChars (l : List Char) : Bool :=
  let sgn := parseSignum l
  !sgn.2.isEmpty && sgn.2.all isDig

/-- Read an integer literal. -/
def parseIntChars (l : List Char) : Int :=
  let sgn := parseSignum l
  if sgn.1 then -(natOfDigits sgn.2 : Int) else (natOfDigits sgn.2 : Int)

/-- The raw field parses as a float. -/
def isFloatLikeChars (l : List Char) : Bool :=
  (parseNumericChars l).isSome

/-- The boolean literals `pd.read_csv` recognises. -/
def BOOL_TRUE : List String := ["TRUE", "True", "true"]

/-- See `BOOL_TRUE`. -/
def BOOL_FALSE : List String := ["FALSE", "False", "false"]

/-- The raw field is a boolean literal. -/
def isBoolLikeChars (l : List Char) : Bool :=
  BOOL_TRUE.contains (String.mk l) || BOOL_FALSE.contains (String.mk l)

/-- Read a boolean literal. -/
def parseBoolChars (l : List Char) : Bool :=
  BOOL_TRUE.contains (String.mk l)

/-- Column-wise dtype inference of `pd.read_csv` on the raw fields of one
column: all-integer columns without missing values become `int64`, else
all-numeric columns become `float64` (missing values `NaN`), else
all-boolean columns become `bool`, else the column stays textual with NA
literals as missing values. -/
def colImport (cells : List (List Char)) : List Value :=
  let opts := cells.map naLift
  let present := opts.filterMap id
  if present.all isIntLikeChars && opts.all Option.isSome then
    opts.map fun o =>
      match o with
      | some l => .int (parseIntChars l)
      | none => .null
  else if present.all isFloatLikeChars then
    opts.map fun o =>
      match o with
      | some l => .float ((parseNumericChars l).getD 0)
      | none => .null
  else if present.all isBoolLikeChars then
    opts.map fun o =>
      match o with
      | some l => .bool (parseBoolChars l)
      | none => .null
  else
    opts.map fun o =>
      match o with
      | some l => .str (String.mk l)
      | none => .null

/-- The text `df.to_csv` writes for one cell. -/
def csvCellChars : Value → List Char
  | .null => []
  | .str s => s.data
  | .int n => intChars n
  | .float q => floatChars q
  | .bool b => if b then "True".data else "False".data

/-- Characters that force quoting under `QUOTE_MINIMAL`. -/
def needsQuote (c : Char) : Bool :=
  c == ',' || c == '"' || c == '\n' || c == '\r'

/-- Double every quote character (CSV quote escaping). -/
def escQuote : List Char → List Char
  | [] => []
  | c :: cs => if c == '"' then '"' :: '"' :: escQuote cs else c :: escQuote cs

/-- Quote a field if and only if it needs it (`QUOTE_MINIMAL`, the
`to_csv` default). -/
def quoteField (f : List Char) : List Char :=
  if f.any needsQuote then '"' :: (escQuote f ++ ['"']) else f

/-- Comma-join a list of rendered fields. -/
def joinComma : List (List Char) → List Char
  | [] => []
  | [f] => f
  | f :: fs => f ++ ',' :: joinComma fs

/-- Render one CSV line. -/
def renderLineChars (fields : List (List Char)) : List Char :=
  joinComma (fields.map quoteField)

/-- Join lines, terminating each with `'\n'` (as `to_csv` does, including
the last line). -/
def joinLines (ls : List (List Char)) : List Char :=
  ls.foldr (fun l acc => l ++ '\n' :: acc) []

/-- The data rows of `df.to_csv(index=False)`: one line per row, cells in
column order. -/
def csvRows (t : Table) : List (List Char) :=
  (List.range t.nrows).map fun i =>
    renderLineChars (t.columns.map fun col => csvCellChars (col.getD i .null))

/-- `download_csv` (lines 76–77): `df.to_csv(index=False).encode("utf-8")` —
a header line with the column names followed by the data rows. -/
def download_csv (t : Table) : String :=
  String.mk (joinLines (renderLineChars (t.header.map String.data) :: csvRows t))

/-- Split a character list at every occurrence of `sep` (the pieces do not
contain `sep`; always at least one piece). -/
def splitOnChar (sep : Char) : List Char → List (List Char)
  | [] => [[]]
  | c :: cs =>
    if c == sep then [] :: splitOnChar sep cs
    else
      match splitOnChar sep cs with
      | [] => [[c]]
      | l :: ls => (c :: l) :: ls

/-- Drop one trailing carriage return (`\r\n` line endings). -/
def dropCR (l : List Char) : List Char :=
  match l.reverse with
  | [] => l
  | c :: rest => if c == '\r' then rest.reverse else l

/-- Tokenizer mode: inside an unquoted field, inside a quoted field, or just
after a closing quote. -/
inductive PMode where
  | plain : PMode
  | quoted : PMode
  | closed : PMode
deriving DecidableEq, Repr

/-- Split one CSV line into fields, honouring quoting and doubled-quote
escapes; `none` on an unterminated quote (a parse error in pandas). -/
def parseFieldsAux : List Char → List Char → PMode → List (List Char) → Option (List (List Char))
  | [], cur, m, acc => if m = .quoted then none else some (acc ++ [cur])
  | c :: cs, cur, .plain, acc =>
    if c == ',' then parseFieldsAux cs [] .plain (acc ++ [cur])
    else if c == '"' && cur.isEmpty then parseFieldsAux cs cur .quoted acc
    else parseFieldsAux cs (cur ++ [c]) .plain acc
  | c :: cs, cur, .quoted, acc =>
    if c == '"' then parseFieldsAux cs cur .closed acc
    else parseFieldsAux cs (cur ++ [c]) .quoted acc
  | c :: cs, cur, .closed, acc =>
    if c == '"' then parseFieldsAux cs (cur ++ [c]) .quoted acc
    else if c == ',' then parseFieldsAux cs [] .plain (acc ++ [cur])
    else parseFieldsAux cs (cur ++ [c]) .plain acc

/-- Split one CSV line into raw fields. -/
def parseLineChars (l : List Char) : Option (List (List Char)) :=
  parseFieldsAux l [] .plain []

/-- Parse every data line; `none` as soon as one fails. -/
def parseAllLines : List (List Char) → Option (List (List (List Char)))
  | [] => some []
  | l :: ls =>
    match parseLineChars l, parseAllLines ls with
    | some f, some fs => some (f :: fs)
    | _, _ => none

/-- The model of `pd.read_csv` on a byte stream: split into lines (skipping
blank lines), parse the header line and every data line, reject the input
when it is empty (`EmptyDataError`), a quote is unterminated, or a data row
has more fields than the header (tokenizer error); short rows are padded
with missing values.  Then each column gets the dtype inference of
`colImport`. -/
def read_csv (s : String) : Option Table :=
  let lines := ((splitOnChar '\n' s.data).map dropCR).filter (fun l => !l.isEmpty)
  match lines with
  | [] => none
  | hl :: dls =>
    match parseLineChars hl, parseAllLines dls with
    | some hdr, some rows =>
      if rows.all (fun r => r.length ≤ hdr.length) then
        some ⟨hdr.map String.mk,
              (List.range hdr.length).map fun j => colImport (rows.map fun r => r.getD j [])⟩
      else none
    | _, _ => none

/-- `import_csv`: parse then normalize (lines 95–96). -/
def import_csv (today : Today) (s : String) : Option Table :=
  (read_csv s).map (ensure_df today)

/-- The whole import interaction (lines 93–99): on success the session
ledger is replaced by the normalized parse and `True` (the success banner)
is returned; on a parse failure the `except` branch leaves the session
ledger untouched and returns `False` (the error banner). -/
def importStep (today : Today) (prior : Table) (s : String) : Table × Bool :=
  match read_csv s with
  | some df => (ensure_df today df, true)
  | none => (prior, false)

/-- The cell has the declared dtype of canonical column `c`. -/
def declaredOk (c : String) (v : Value) : Bool :=
  if c = "year" then (match v with | .int _ => true | _ => false)
  else if c = "budget" ∨ c = "purchased_cost" then (match v with | .float _ => true | _ => false)
  else if c = "purchased" then (match v with | .bool _ => true | _ => false)
  else (match v with | .str _ => true | _ => false)

/-- The table has exactly the canonical header and every cell has its
column's declared dtype — the shape of every session ledger. -/
def typedTable (t : Table) : Prop :=
  t.header = COLUMNS ∧
    ∀ c ∈ COLUMNS, ∀ v ∈ (t.colQ c).getD [], declaredOk c v = true

instance (t : Table) : Decidable (typedTable t) := by
  unfold typedTable
  infer_instance

/-- Follows the spec's words: leap years for the ISO calendar. -/
def specLeap (y : Nat) : Bool :=
  (y % 4 == 0 && y % 100 != 0) || y % 400 == 0

/-- Follows the spec's words: the number of days of month `m` of year `y`. -/
def specMonthLen (y m : Nat) : Nat :=
  if m = 2 then (if specLeap y then 29 else 28)
  else if m = 4 ∨ m = 6 ∨ m = 9 ∨ m = 11 then 30
  else 31

/-- Follows the spec's words ("calendar date (ISO-8601 string)"): a
`YYYY-MM-DD` string denoting a real calendar date. -/
def specISODate (s : String) : Bool :=
  match s.data with
  | [y1, y2, y3, y4, '-', m1, m2, '-', d1, d2] =>
    [y1, y2, y3, y4, m1, m2, d1, d2].all isDig &&
      (let y := natOfDigits [y1, y2, y3, y4]
       let m := natOfDigits [m1, m2]
       let d := natOfDigits [d1, d2]
       decide (1 ≤ m) && decide (m ≤ 12) && decide (1 ≤ d) && decide (d ≤ specMonthLen y m))
  | _ => false

/-- The row-level filter predicate the spec describes (4.2): literal
case-insensitive substring containment — the referent the filter engine is
compared against. -/
def passesLit (fs : FilterSpec) (r : GiftRecord) : Bool :=
  (fs.yearSel.contains r.year &&
      (uiNeedle fs.recInput == "" ||
        hasSub (uiNeedle fs.recInput).data (lowerStr r.recipient).data) &&
    (uiNeedle fs.occInput == "" ||
      hasSub (uiNeedle fs.occInput).data (lowerStr r.occasion).data)) &&
    (!fs.onlyUnpurchased || !r.purchased)

/-- Every numeric value supplied in column `c` of the raw input is ≥ 0 (a
failed parse counts as its 0.0 fallback). -/
def colCellsNonneg (t : Table) (c : String) : Prop :=
  ∀ v ∈ (t.colQ c).getD [], 0 ≤ (toNumeric v).getD 0

instance (t : Table) (c : String) : Decidable (colCellsNonneg t c) := by
  unfold colCellsNonneg
  infer_instance

/-- A field that survives the CSV boundary verbatim: non-empty, not an NA
literal, not numeric, not a boolean literal, and free of the separator,
quote and line-break characters. -/
def csvPlainB (l : List Char) : Bool :=
  !l.isEmpty && !NA_SET.contains (String.mk l) && !isIntLikeChars l &&
    !isFloatLikeChars l && !isBoolLikeChars l && l.all fun c => !needsQuote c

/-- A text-column cell of a round-trippable ledger: a string that is empty
or CSV-plain. -/
def cellStrPlain : Value → Bool
  | .str s => s.data.isEmpty || csvPlainB s.data
  | _ => false

/-- An integer cell. -/
def cellInt : Value → Bool
  | .int _ => true
  | _ => false

/-- A float cell holding a finite decimal. -/
def cellDecFloat : Value → Bool
  | .float q => decide (IsDecRat q)
  | _ => false

/-- A boolean cell. -/
def cellBool : Value → Bool
  | .bool _ => true
  | _ => false

/-- The eight columns of a normalized ledger, named. -/
structure LedgerCols where
  dateC : List Value
  yearC : List Value
  recC : List Value
  occC : List Value
  ideaC : List Value
  budC : List Value
  purC : List Value
  costC : List Value
deriving DecidableEq, Repr

/-- The frame with the canonical header and the eight given columns. -/
def Table.ofCols (lc : LedgerCols) : Table :=
  ⟨COLUMNS, [lc.dateC, lc.yearC, lc.recC, lc.occC, lc.ideaC, lc.budC, lc.purC, lc.costC]⟩

/-- All eight columns have the length of the first (the frame is
rectangular). -/
def LedgerCols.rect (lc : LedgerCols) : Prop :=
  lc.yearC.length = lc.dateC.length ∧ lc.recC.length = lc.dateC.length ∧
    lc.occC.length = lc.dateC.length ∧ lc.ideaC.length = lc.dateC.length ∧
      lc.budC.length = lc.dateC.length ∧ lc.purC.length = lc.dateC.length ∧
        lc.costC.length = lc.dateC.length

instance (lc : LedgerCols) : Decidable lc.rect := by
  unfold LedgerCols.rect
  infer_instance

/-- The hypotheses of the amended round-trip claim: the ledger is typed
(as every normalized ledger is), its date and text cells are empty or
CSV-plain, and its money cells are finite decimals. -/
def LedgerCols.roundTrippable (lc : LedgerCols) : Prop :=
  lc.dateC.all cellStrPlain = true ∧ lc.yearC.all cellInt = true ∧
    lc.recC.all cellStrPlain = true ∧ lc.occC.all cellStrPlain = true ∧
      lc.ideaC.all cellStrPlain = true ∧ lc.budC.all cellDecFloat = true ∧
        lc.purC.all cellBool = true ∧ lc.costC.all cellDecFloat = true

instance (lc : LedgerCols) : Decidable lc.roundTrippable := by
  unfold LedgerCols.roundTrippable
  infer_instance

/-- A fixed clock for the concrete instances below. -/
def T26 : Today := ⟨"2026-10-12", 2026⟩

/-- Concrete raw frame: an unknown extra column plus a `year` column with a
non-numeric and a numeric cell. -/
def tW1 : Table := ⟨["extra", "year"], [[.str "x", .null], [.str "abc", .int 3]]⟩

/-- Concrete raw frame with no `date` column. -/
def tW9 : Table := ⟨["budget"], [[.str "7"]]⟩

/-- Concrete raw frame with a `purchased` column holding the string
`"False"` and a null. -/
def tW10 : Table := ⟨["purchased"], [[.str "False", .null]]⟩

/-- Concrete raw frame with nonnegative money inputs. -/
def tW8 : Table := ⟨["budget", "purchased_cost"], [[.str "3", .null], [.float (mkRat 5 2), .int 4]]⟩

/-- Concrete gift records. -/
def gW : GiftRecord := ⟨"2026-01-01", 2026, "Alice", "Birthday", "book", mkRat 20 1, false, 0⟩

/-- See `gW`. -/
def gW2 : GiftRecord := ⟨"2026-01-02", 2025, "xyz", "Xmas", "", mkRat 5 1, true, mkRat 4 1⟩

/-- A concrete filter specification selecting both years. -/
def fsW : FilterSpec := ⟨[2026, 2025], "", "", false⟩

/-- A concrete record whose recipient is `"xyz"`. -/
def rX : GiftRecord := ⟨"2026-01-01", 2026, "xyz", "", "", 0, false, 0⟩

/-- A concrete filter whose recipient search string contains a regex
wildcard. -/
def fsX : FilterSpec := ⟨[2026], "x.z", "", false⟩

/-- A concrete filter with the metacharacter-free search string `"ALI "`. -/
def fs5 : FilterSpec := ⟨[2026], "ALI ", "", false⟩

/-- A concrete filter selecting only year 2025. -/
def fs7 : FilterSpec := ⟨[2025], "", "", false⟩

/-- The frame `read_csv` reconstructs from the export of `Table.ofCols lc`:
the canonical header with each column re-imported from its rendered cells. -/
def importTable (lc : LedgerCols) : Table :=
  Table.mk COLUMNS
    [colImport (lc.dateC.map fun v => csvCellChars v),
     colImport (lc.yearC.map fun v => csvCellChars v),
     colImport (lc.recC.map fun v => csvCellChars v),
     colImport (lc.occC.map fun v => csvCellChars v),
     colImport (lc.ideaC.map fun v => csvCellChars v),
     colImport (lc.budC.map fun v => csvCellChars v),
     colImport (lc.purC.map fun v => csvCellChars v),
     colImport (lc.costC.map fun v => csvCellChars v)]

/-- A concrete round-trippable ledger: one fully populated record. -/
def lcW : LedgerCols :=
  ⟨[.str "2026-01-01"], [.int 2026], [.str "Alice"], [.str "Birthday"], [.str "book"],
   [.float (mkRat 20 1)], [.bool false], [.float 0]⟩

/-- A concrete raw frame whose recipient is the string "nan". -/
def tN : Table := ⟨["recipient"], [[.str "nan"]]⟩

/-! ### Basic lookup lemmas -/

theorem lookupCol_map_self (hs : List String) (f : String → List Value) (c : String)
    (hc : c ∈ hs) : lookupCol hs (hs.map f) c = some (f c) := by
  induction hs with
  | nil => cases hc
  | cons h hs ih =>
    simp only [List.map, lookupCol]
    by_cases hh : h = c
    · subst hh
      simp
    · rw [if_neg hh]
      rcases List.mem_cons.mp hc with rfl | hc2
      · exact absurd rfl hh
      · exact ih hc2

theorem colQ_isSome_iff (hs : List String) (cols : List (List Value)) (c : String)
    (hlen : hs.length = cols.length) : (lookupCol hs cols c).isSome ↔ c ∈ hs := by
  induction hs generalizing cols with
  | nil => simp [lookupCol]
  | cons h hs ih =>
    cases cols with
    | nil => simp at hlen
    | cons col cols =>
      simp only [lookupCol]
      by_cases hh : h = c
      · subst hh
        simp
      · simp only [if_neg hh, List.mem_cons]
        rw [ih cols (by simpa using hlen)]
        constructor
        · exact fun h2 => Or.inr h2
        · rintro (h2 | h2)
          · exact absurd h2.symm hh
          · exact h2

theorem lookupCol_append_some (hs hs2 : List String) (cols cols2 : List (List Value))
    (c : String) (x : List Value) (h : lookupCol hs cols c = some x) :
    lookupCol (hs ++ hs2) (cols ++ cols2) c = some x := by
  induction hs generalizing cols with
  | nil => simp [lookupCol] at h
  | cons a hs ih =>
    cases cols with
    | nil => simp [lookupCol] at h
    | cons col cols =>
      simp only [lookupCol, List.cons_append] at h ⊢
      by_cases ha : a = c
      · simpa [ha] using h
      · simp only [if_neg ha] at h ⊢
        exact ih cols h

theorem lookupCol_append_none (hs : List String) (cols : List (List Value))
    (a c : String) (col : List Value) (hlen : hs.length = cols.length)
    (h : lookupCol hs cols c = none) :
    lookupCol (hs ++ [a]) (cols ++ [col]) c = if a = c then some col else none := by
  induction hs generalizing cols with
  | nil =>
    cases cols with
    | nil => simp [lookupCol]
    | cons _ _ => simp at hlen
  | cons b hs ih =>
    cases cols with
    | nil => simp at hlen
    | cons col2 cols =>
      simp only [lookupCol, List.cons_append] at h ⊢
      by_cases hb : b = c
      · simp [hb] at h
      · simp only [if_neg hb] at h ⊢
        exact ih cols (by simpa using hlen) h

/-! ### `addMissingCols` structure -/

/-- Length alignment is preserved by the add-missing loop. -/
theorem addMissingCols_len (today : Today) (n : Nat) (cs : List String) (t : Table)
    (h : t.header.length = t.columns.length) :
    (addMissingCols today n cs t).header.length = (addMissingCols today n cs t).columns.length := by
  induction cs generalizing t with
  | nil => exact h
  | cons c cs ih =>
    simp only [addMissingCols]
    by_cases hc : c ∈ t.header
    · simpa [hc] using ih t h
    · simp only [if_neg hc]
      exact ih _ (by simp [h])

/-- A column already found is untouched by the add-missing loop. -/
theorem addMissingCols_some (today : Today) (n : Nat) (cs : List String) (t : Table)
    (c : String) (x : List Value) (h : t.colQ c = some x) :
    (addMissingCols today n cs t).colQ c = some x := by
  induction cs generalizing t with
  | nil => exact h
  | cons a cs ih =>
    simp only [addMissingCols]
    by_cases ha : a ∈ t.header
    · simpa [ha] using ih t h
    · simp only [if_neg ha]
      exact ih _ (lookupCol_append_some _ _ _ _ _ _ h)

/-- After the add-missing loop, each requested column holds either its
original cells or `nrows` copies of its default. -/
theorem addMissingCols_colQ (today : Today) (n : Nat) (cs : List String) (t : Table)
    (hnd : cs.Nodup) (hlen : t.header.length = t.columns.length) :
    ∀ c ∈ cs,
      (addMissingCols today n cs t).colQ c =
        some ((t.colQ c).getD (List.replicate n (defaultFor today c))) := by
  induction cs generalizing t with
  | nil => intro c hc; cases hc
  | cons a cs ih =>
    intro c hc
    have hnd2 : cs.Nodup := hnd.of_cons
    rcases List.mem_cons.mp hc with rfl | hc2
    · -- the head column: settled by this step, preserved afterwards
      simp only [addMissingCols]
      by_cases ha : c ∈ t.header
      · have hsome : (t.colQ c).isSome := (colQ_isSome_iff _ _ _ hlen).mpr ha
        obtain ⟨x, hx⟩ := Option.isSome_iff_exists.mp hsome
        rw [if_pos ha, addMissingCols_some today n cs t c x hx, hx]
        rfl
      · have hnone : t.colQ c = none := by
          cases hx : t.colQ c with
          | none => rfl
          | some x =>
            exact absurd ((colQ_isSome_iff _ _ _ hlen).mp (by simp [Table.colQ] at hx ⊢; simp [hx])) ha
        rw [if_neg ha, hnone]
        have hstep : (Table.mk (t.header ++ [c]) (t.columns ++ [List.replicate n (defaultFor today c)])).colQ c
            = some (List.replicate n (defaultFor today c)) := by
          unfold Table.colQ
          rw [lookupCol_append_none _ _ _ _ _ hlen hnone, if_pos rfl]
        exact addMissingCols_some today n cs _ c _ hstep
    · -- a later column: this step only appends a different name
      simp only [addMissingCols]
      by_cases ha : a ∈ t.header
      · rw [if_pos ha]
        exact ih t hnd2 hlen c hc2
      · rw [if_neg ha]
        have hne : a ≠ c := by
          intro h
          subst h
          exact (List.nodup_cons.mp hnd).1 hc2
        have hcolq : (Table.mk (t.header ++ [a]) (t.columns ++ [List.replicate n (defaultFor today a)])).colQ c
            = t.colQ c := by
          show lookupCol (t.header ++ [a]) (t.columns ++ [List.replicate n (defaultFor today a)]) c
              = lookupCol t.header t.columns c
          cases hx : lookupCol t.header t.columns c with
          | some x => exact lookupCol_append_some _ _ _ _ _ _ hx
          | none => rw [lookupCol_append_none _ _ _ _ _ hlen hx, if_neg hne]
        refine (ih _ hnd2 (by simp [hlen]) c hc2).trans ?_
        rw [hcolq]

/-- When every requested column is already present, the add-missing loop is
the identity. -/
theorem addMissingCols_of_subset (today : Today) (n : Nat) (cs : List String) (t : Table)
    (h : ∀ c ∈ cs, c ∈ t.header) : addMissingCols today n cs t = t := by
  induction cs with
  | nil => rfl
  | cons c cs ih =>
    simp only [addMissingCols, if_pos (h c (List.mem_cons_self c cs))]
    exact ih fun a ha => h a (List.mem_cons_of_mem c ha)

/-! ### Cell coercion is idempotent -/

theorem toNumeric_intCast (n : Int) : toNumeric (.int n) = some (n : Rat) := rfl

theorem truncToInt_intCast (n : Int) : truncToInt ((n : Int) : Rat) = n := by
  unfold truncToInt
  rw [Rat.intCast_num, Rat.intCast_den]
  exact Int.tdiv_one n

theorem coerceYearCell_int (today : Today) (n : Int) :
    coerceYearCell today (.int n) = n := by
  unfold coerceYearCell
  rw [toNumeric_intCast]
  exact truncToInt_intCast n

/-- Each per-column coercion is a projection: coercing twice is coercing
once. -/
theorem cellCoerce_idem (today : Today) (c : String) (v : Value) :
    cellCoerce today c (cellCoerce today c v) = cellCoerce today c v := by
  unfold cellCoerce
  split_ifs with h1 h2 h3 h4
  · rw [coerceYearCell_int]
  · rfl
  · rfl
  · rfl
  · rfl

/-- The membership of the canonical column list, spelled out. -/
theorem mem_COLUMNS_iff (c : String) :
    c ∈ COLUMNS ↔ c = "date" ∨ c = "year" ∨ c = "recipient" ∨ c = "occasion" ∨
      c = "idea" ∨ c = "budget" ∨ c = "purchased" ∨ c = "purchased_cost" := by
  simp [COLUMNS]

/-- The canonical defaults are fixed points of their column's coercion. -/
theorem cellCoerce_default (today : Today) (c : String) (hc : c ∈ COLUMNS) :
    cellCoerce today c (defaultFor today c) = defaultFor today c := by
  rcases (mem_COLUMNS_iff c).mp hc with rfl | rfl | rfl | rfl | rfl | rfl | rfl | rfl <;>
    simp [cellCoerce, defaultFor, coerceYearCell_int, coerceDateCell, coerceTextCell,
      coerceMoneyCell, coercePurchasedCell, toNumeric, pyStr]

/-! ### The normalized shape of `ensure_df` output, and idempotence -/

/-- The header of a normalized frame is the canonical one. -/
theorem ensure_df_header (today : Today) (t : Table) : (ensure_df today t).header = COLUMNS := rfl

/-- Column lookup on the frame `ensure_df` builds. -/
theorem ensure_df_colQ (today : Today) (t : Table) (c : String) (hc : c ∈ COLUMNS) :
    (ensure_df today t).colQ c =
      some ((((addMissingCols today t.nrows COLUMNS t).colQ c).getD []).map (cellCoerce today c)) := by
  show lookupCol COLUMNS (COLUMNS.map fun c =>
      (((addMissingCols today t.nrows COLUMNS t).colQ c).getD []).map (cellCoerce today c)) c = _
  exact lookupCol_map_self COLUMNS _ c hc

/-- C2 (normalize is idempotent), as an unconditional equation on the
model: `ensure_df` applied twice is `ensure_df` applied once, for every
tabular input whatsoever (with the clock held fixed across the two calls,
as within any single claim instance). -/
theorem ensure_df_idem (today : Today) (t : Table) :
    ensure_df today (ensure_df today t) = ensure_df today t := by
  have hsub : ∀ c ∈ COLUMNS, c ∈ (ensure_df today t).header := by
    intro c hc
    rw [ensure_df_header]
    exact hc
  have key : addMissingCols today (ensure_df today t).nrows COLUMNS (ensure_df today t)
      = ensure_df today t :=
    addMissingCols_of_subset today _ COLUMNS _ hsub
  have step1 : ensure_df today (ensure_df today t)
      = Table.mk COLUMNS (COLUMNS.map fun c =>
          (((addMissingCols today (ensure_df today t).nrows COLUMNS (ensure_df today t)).colQ c).getD
            []).map (cellCoerce today c)) := rfl
  rw [step1, key]
  refine congrArg (Table.mk COLUMNS) ?_
  refine List.map_congr_left fun c hc => ?_
  rw [ensure_df_colQ today t c hc]
  rw [Option.getD_some, List.map_map]
  refine List.map_congr_left fun v _ => ?_
  exact cellCoerce_idem today c v

/-! ### Per-column dispatch of the coercion -/

theorem cellCoerce_at_date (today : Today) (v : Value) :
    cellCoerce today "date" v = .str (coerceDateCell v) := by
  simp [cellCoerce]

theorem cellCoerce_at_year (today : Today) (v : Value) :
    cellCoerce today "year" v = .int (coerceYearCell today v) := by
  simp [cellCoerce]

theorem cellCoerce_at_budget (today : Today) (v : Value) :
    cellCoerce today "budget" v = .float (coerceMoneyCell v) := by
  simp [cellCoerce]

theorem cellCoerce_at_cost (today : Today) (v : Value) :
    cellCoerce today "purchased_cost" v = .float (coerceMoneyCell v) := by
  simp [cellCoerce]

theorem cellCoerce_at_purchased (today : Today) (v : Value) :
    cellCoerce today "purchased" v = .bool (coercePurchasedCell v) := by
  simp [cellCoerce]

theorem cellCoerce_at_recipient (today : Today) (v : Value) :
    cellCoerce today "recipient" v = .str (coerceTextCell v) := by
  simp [cellCoerce]

theorem cellCoerce_at_occasion (today : Today) (v : Value) :
    cellCoerce today "occasion" v = .str (coerceTextCell v) := by
  simp [cellCoerce]

theorem cellCoerce_at_idea (today : Today) (v : Value) :
    cellCoerce today "idea" v = .str (coerceTextCell v) := by
  simp [cellCoerce]

theorem declaredOk_cellCoerce (today : Today) (c : String) (v : Value) (hc : c ∈ COLUMNS) :
    declaredOk c (cellCoerce today c v) = true := by
  rcases (mem_COLUMNS_iff c).mp hc with rfl | rfl | rfl | rfl | rfl | rfl | rfl | rfl <;>
    simp [declaredOk, cellCoerce]

theorem Table.colQ_mem_iff (t : Table) (c : String)
    (hlen : t.header.length = t.columns.length) : (t.colQ c).isSome ↔ c ∈ t.header :=
  colQ_isSome_iff t.header t.columns c hlen

/-! ### Claim C2 -/

/-- C2: normalize is idempotent — `normalize(normalize(T)) = normalize(T)`
for every tabular input `T` (the clock is held fixed across the two calls,
as within any single claim instance). -/
theorem C2_normalize_idempotent (today : Today) (t : Table) :
    ensure_df today (ensure_df today t) = ensure_df today t :=
  ensure_df_idem today t

/-! ### Claim C1 -/

/-- C1 (amended): for every well-formed tabular input, `ensure_df` returns
a frame with exactly the eight canonical columns in canonical order and
cannot raise (it is a total function); every column missing from the input
is filled with that column's type default, and every present column is
coerced cell-wise by its column's coercion — numeric coercion failures fall
back to the column default for `year`/`budget`/`purchased_cost`, `purchased`
coerces by truthiness with null as `False`, and `date`/text cells are
stringified with null as the empty string (an unparseable date cell is kept
verbatim, not replaced by today's date). -/
theorem C1_normalize_schema (today : Today) (t : Table) (h : t.wf) :
    (ensure_df today t).header = COLUMNS ∧
    (ensure_df today t).columns.length = COLUMNS.length ∧
    ∀ c ∈ COLUMNS,
      (ensure_df today t).colQ c =
        some (match t.colQ c with
          | some col => col.map (cellCoerce today c)
          | none => List.replicate t.nrows (defaultFor today c)) := by
  refine ⟨rfl, ?_, ?_⟩
  · have hcols : (ensure_df today t).columns = COLUMNS.map fun c =>
        (((addMissingCols today t.nrows COLUMNS t).colQ c).getD []).map (cellCoerce today c) := rfl
    rw [hcols, List.length_map]
  · intro c hc
    rw [ensure_df_colQ today t c hc,
      addMissingCols_colQ today t.nrows COLUMNS t (by decide) h.2.1 c hc]
    simp only [Option.getD_some]
    cases hcol : t.colQ c with
    | some col => simp only [Option.getD_some]
    | none =>
      simp only [Option.getD_none]
      rw [List.map_replicate, cellCoerce_default today c hc]

/-- Witness for C1 at a concrete frame: an unknown extra column is dropped,
the present `year` column is coerced cell-wise, the six missing canonical
columns are filled with defaults. -/
theorem C1_normalize_schema_witness :
    tW1.wf ∧
    ((ensure_df T26 tW1).header = COLUMNS ∧
     (ensure_df T26 tW1).columns.length = COLUMNS.length ∧
     ∀ c ∈ COLUMNS,
       (ensure_df T26 tW1).colQ c =
         some (match tW1.colQ c with
           | some col => col.map (cellCoerce T26 c)
           | none => List.replicate tW1.nrows (defaultFor T26 c))) :=
  ⟨by decide, C1_normalize_schema T26 tW1 (by decide)⟩

/-- C1 as stated is false on the code: the present date cell
`"not-a-date"` fails coercion to a calendar date, but normalization keeps
it verbatim instead of replacing it with the date-column default (today's
date). -/
theorem C1_counterexample :
    specISODate "not-a-date" = false ∧
    (ensure_df T26 (Table.mk ["date"] [[Value.str "not-a-date"]])).cellAt "date" 0
      = Value.str "not-a-date" ∧
    Value.str "not-a-date" ≠ Value.str T26.todayISO := by
  refine ⟨by decide, by decide, by decide⟩

/-! ### Claim C9 -/

/-- C9 (amended): only a *missing* date column is filled with today's date.
A present date column is merely stringified cell-wise: a null date cell
becomes the empty string and any other value (valid ISO date or not) is
kept as its string form — never replaced by today's date. -/
theorem C9_date_defaulting (today : Today) (t : Table) (h : t.wf) :
    ("date" ∉ t.header →
      (ensure_df today t).colQ "date" = some (List.replicate t.nrows (Value.str today.todayISO))) ∧
    (∀ col, t.colQ "date" = some col →
      (ensure_df today t).colQ "date" = some (col.map fun v => Value.str (coerceDateCell v))) ∧
    coerceDateCell .null = "" ∧ (∀ s, coerceDateCell (.str s) = s) := by
  have hdc : "date" ∈ COLUMNS := by decide
  refine ⟨?_, ?_, rfl, fun s => rfl⟩
  · intro hmem
    have hnone : t.colQ "date" = none := by
      cases hx : t.colQ "date" with
      | none => rfl
      | some col =>
        exact absurd ((t.colQ_mem_iff "date" h.2.1).mp (by rw [hx]; rfl)) hmem
    rw [ensure_df_colQ today t "date" hdc,
      addMissingCols_colQ today t.nrows COLUMNS t (by decide) h.2.1 "date" hdc, hnone]
    simp only [Option.getD_none, Option.getD_some]
    rw [List.map_replicate, cellCoerce_default today "date" hdc]
    simp [defaultFor]
  · intro col hcol
    rw [ensure_df_colQ today t "date" hdc,
      addMissingCols_colQ today t.nrows COLUMNS t (by decide) h.2.1 "date" hdc, hcol]
    simp only [Option.getD_some]
    refine congrArg some ?_
    exact List.map_congr_left fun v _ => cellCoerce_at_date today v

/-- Witness for C9 at a concrete frame whose `date` column is missing. -/
theorem C9_date_defaulting_witness :
    tW9.wf ∧
    (("date" ∉ tW9.header →
      (ensure_df T26 tW9).colQ "date" = some (List.replicate tW9.nrows (Value.str T26.todayISO))) ∧
     (∀ col, tW9.colQ "date" = some col →
       (ensure_df T26 tW9).colQ "date" = some (col.map fun v => Value.str (coerceDateCell v))) ∧
     coerceDateCell .null = "" ∧ (∀ s, coerceDateCell (.str s) = s)) :=
  ⟨by decide, C9_date_defaulting T26 tW9 (by decide)⟩

/-- C9 as stated is false on the code: `"garbage"` is not a valid ISO-8601
calendar date, yet after normalization the date cell still holds
`"garbage"`, not today's date. -/
theorem C9_counterexample :
    specISODate "garbage" = false ∧
    (ensure_df T26 (Table.mk ["date"] [[Value.str "garbage"]])).cellAt "date" 0
      = Value.str "garbage" ∧
    Value.str "garbage" ≠ Value.str T26.todayISO := by
  refine ⟨by decide, by decide, by decide⟩

/-! ### Claim C10 -/

/-- C10: the `purchased` column is coerced by truthiness, not by parsing
boolean literals: nulls become `False` and every other value becomes its
Python truthiness, so the non-empty string `"False"` becomes `True`. -/
theorem C10_purchased_truthiness (today : Today) (t : Table) (col : List Value) (h : t.wf)
    (hcol : t.colQ "purchased" = some col) :
    (ensure_df today t).colQ "purchased"
      = some (col.map fun v => Value.bool (coercePurchasedCell v)) ∧
    coercePurchasedCell .null = false ∧
    coercePurchasedCell (.str "False") = true ∧
    (∀ s, coercePurchasedCell (.str s) = !(s == "")) ∧
    (∀ n : Int, coercePurchasedCell (.int n) = !(n == 0)) ∧
    (∀ q : Rat, coercePurchasedCell (.float q) = !(q == 0)) ∧
    (∀ b, coercePurchasedCell (.bool b) = b) := by
  have hpc : "purchased" ∈ COLUMNS := by decide
  refine ⟨?_, rfl, by decide, fun s => rfl, fun n => rfl, fun q => rfl, fun b => rfl⟩
  rw [ensure_df_colQ today t _ hpc,
    addMissingCols_colQ today t.nrows COLUMNS t (by decide) h.2.1 _ hpc, hcol]
  simp only [Option.getD_some]
  refine congrArg some ?_
  exact List.map_congr_left fun v _ => cellCoerce_at_purchased today v

/-- Witness for C10 at a concrete frame: the cell `"False"` normalizes to
`purchased = True`, the null to `False`. -/
theorem C10_purchased_truthiness_witness :
    tW10.wf ∧ tW10.colQ "purchased" = some [.str "False", .null] ∧
    ((ensure_df T26 tW10).colQ "purchased"
       = some ([Value.str "False", Value.null].map fun v => Value.bool (coercePurchasedCell v)) ∧
     coercePurchasedCell .null = false ∧
     coercePurchasedCell (.str "False") = true ∧
     (∀ s, coercePurchasedCell (.str s) = !(s == "")) ∧
     (∀ n : Int, coercePurchasedCell (.int n) = !(n == 0)) ∧
     (∀ q : Rat, coercePurchasedCell (.float q) = !(q == 0)) ∧
     (∀ b, coercePurchasedCell (.bool b) = b)) :=
  ⟨by decide, by decide, C10_purchased_truthiness T26 tW10 [.str "False", .null] (by decide) (by decide)⟩

/-! ### The mask pipeline computes a row-level predicate -/

theorem maskOf_cons (fs : FilterSpec) (r : GiftRecord) (l : List GiftRecord) :
    maskOf (r :: l) fs = passesRegex fs r :: maskOf l fs := by
  unfold maskOf passesRegex
  have e1 : ∀ s : String, s ≠ "" → (s == "") = false := fun s h => beq_eq_false_iff_ne.mpr h
  by_cases h1 : uiNeedle fs.recInput = "" <;> by_cases h2 : uiNeedle fs.occInput = "" <;>
    by_cases h3 : fs.onlyUnpurchased <;>
      simp [h1, h2, h3, e1, List.zipWith_cons_cons, Bool.and_assoc]

theorem filteredView_eq_filter (l : List GiftRecord) (fs : FilterSpec) :
    filteredView l fs = l.filter (passesRegex fs) := by
  induction l with
  | nil => rfl
  | cons r l ih =>
    have ih2 : applyMask l (maskOf l fs) = l.filter (passesRegex fs) := ih
    have h0 : filteredView (r :: l) fs = applyMask (r :: l) (passesRegex fs r :: maskOf l fs) := by
      unfold filteredView
      rw [maskOf_cons]
    rw [h0, applyMask, List.filter_cons]
    by_cases hp : passesRegex fs r = true
    · rw [if_pos hp, if_pos hp, ih2]
    · rw [if_neg hp, if_neg hp, ih2]

/-! ### Claim C4 -/

/-- C4 (amended): the filter engine returns exactly the records passing the
row predicate `passesRegex` — year in the selected set (an empty selection
matches nothing), the two "contains" inputs stripped, lowercased and matched
as regular expressions against the lowercased fields when non-empty, and
unpurchased-only when the checkbox is set — preserving the ledger's relative
order.  (The claim's literal-substring reading of "contains" holds only for
metacharacter-free search strings; see C5.) -/
theorem C4_filter_engine (l : List GiftRecord) (fs : FilterSpec) :
    filteredView l fs = l.filter (passesRegex fs) ∧
    (filteredView l fs).Sublist l ∧
    (fs.yearSel = [] → filteredView l fs = []) := by
  refine ⟨filteredView_eq_filter l fs, ?_, ?_⟩
  · rw [filteredView_eq_filter]
    exact List.filter_sublist l
  · intro hy
    rw [filteredView_eq_filter]
    refine List.filter_eq_nil_iff.mpr ?_
    intro a _
    simp [passesRegex, hy]

/-- Witness for C4 at a concrete ledger and filter. -/
theorem C4_filter_engine_witness :
    filteredView [gW, gW2] fs7 = [gW, gW2].filter (passesRegex fs7) ∧
    (filteredView [gW, gW2] fs7).Sublist [gW, gW2] ∧
    (fs7.yearSel = [] → filteredView [gW, gW2] fs7 = []) :=
  C4_filter_engine [gW, gW2] fs7

/-- C4 as stated is false on the code: with search string `"x.z"` the spec's
literal--containment predicate excludes the record `rX` (recipient `"xyz"`
does not contain `"x.z"`), yet the filter engine returns it, because
`str.contains` treats the search string as a regular expression. -/
theorem C4_counterexample :
    filteredView [rX] fsX = [rX] ∧
    hasSub (uiNeedle fsX.recInput).data (lowerStr rX.recipient).data = false ∧
    passesLit fsX rX = false ∧
    List.filter (passesLit fsX) [rX] = [] := by
  refine ⟨by decide, by decide, by decide, by decide⟩

/-! ### Claim C5 -/

theorem matchHere_lit (ps : List Char) : ∀ l : List Char,
    matchHere (ps.map RToken.lit) l = begWith ps l := by
  induction ps with
  | nil => intro l; cases l <;> rfl
  | cons p ps ih =>
    intro l
    cases l with
    | nil => rfl
    | cons x xs =>
      show (p == x && matchHere (ps.map RToken.lit) xs) = (p == x && begWith ps xs)
      rw [ih xs]

theorem searchFrom_lit (ps : List Char) : ∀ l : List Char,
    searchFrom (ps.map RToken.lit) l = hasSub ps l := by
  intro l
  induction l with
  | nil =>
    show matchHere (ps.map RToken.lit) [] = ps.isEmpty
    cases ps <;> rfl
  | cons x xs ih =>
    show (matchHere (ps.map RToken.lit) (x :: xs) || searchFrom (ps.map RToken.lit) xs)
        = (begWith ps (x :: xs) || hasSub ps xs)
    rw [matchHere_lit, ih]

/-- A metacharacter-free pattern is matched literally. -/
theorem regexSearch_literal (pat s : String)
    (h : ∀ c ∈ pat.data, isRegexMeta c = false) :
    regexSearch pat s = hasSub pat.data s.data := by
  unfold regexSearch
  have htok : pat.data.map tokenOf = pat.data.map RToken.lit := by
    refine List.map_congr_left fun c hc => ?_
    unfold tokenOf
    rw [if_neg]
    intro hdot
    subst hdot
    exact absurd (h '.' hc) (by decide)
  rw [htok, searchFrom_lit]

/-- C5 (amended): matching is case-insensitive, but the stripped, lowercased
search string is interpreted as a regular expression; when it contains no
regex metacharacter it behaves exactly as literal substring containment, so
the spec's example (recipient `"Alice"`, search `"ali"`) does match. -/
theorem C5_literal_matching (l : List GiftRecord) (fs : FilterSpec)
    (hrec : ∀ c ∈ (uiNeedle fs.recInput).data, isRegexMeta c = false)
    (hocc : ∀ c ∈ (uiNeedle fs.occInput).data, isRegexMeta c = false) :
    (∀ r, passesRegex fs r = passesLit fs r) ∧
    filteredView l fs = l.filter (passesLit fs) := by
  have hpp : ∀ r, passesRegex fs r = passesLit fs r := by
    intro r
    unfold passesRegex passesLit
    rw [regexSearch_literal _ _ hrec, regexSearch_literal _ _ hocc]
  refine ⟨hpp, ?_⟩
  rw [filteredView_eq_filter]
  exact List.filter_congr fun r _ => hpp r

/-- Witness for C5: with the raw input `"ALI "` (stripped and lowercased to
`"ali"`, metacharacter-free), the record with recipient `"Alice"` passes. -/
theorem C5_literal_matching_witness :
    (∀ c ∈ (uiNeedle fs5.recInput).data, isRegexMeta c = false) ∧
    (∀ c ∈ (uiNeedle fs5.occInput).data, isRegexMeta c = false) ∧
    ((∀ r, passesRegex fs5 r = passesLit fs5 r) ∧
     filteredView [gW] fs5 = [gW].filter (passesLit fs5)) :=
  ⟨by decide, by decide, C5_literal_matching [gW] fs5 (by decide) (by decide)⟩

/-- C5 as stated is false on the code: the search string is not matched
literally — `"a.i"` is not a substring of `"alice"`, yet the engine's
regex matching accepts it (`.` is a wildcard). -/
theorem C5_counterexample :
    regexSearch (uiNeedle "a.i") (lowerStr "Alice") = true ∧
    hasSub (uiNeedle "a.i").data (lowerStr "Alice").data = false ∧
    passesRegex ⟨[2026], "a.i", "", false⟩ gW = true ∧
    passesLit ⟨[2026], "a.i", "", false⟩ gW = false := by
  refine ⟨by decide, by decide, by decide, by decide⟩

/-! ### Claim C7 -/

theorem applyEditsFrom_length (pend : List (Nat × (Bool × Rat))) :
    ∀ (l : List GiftRecord) (j0 : Nat), (applyEditsFrom j0 pend l).length = l.length
  | [], _ => rfl
  | _ :: rs, j0 => by
    rw [applyEditsFrom]
    simp only [List.length_cons]
    rw [applyEditsFrom_length pend rs (j0 + 1)]

theorem applyEditsFrom_getD (pend : List (Nat × (Bool × Rat))) :
    ∀ (l : List GiftRecord) (j0 j : Nat), j < l.length →
      (applyEditsFrom j0 pend l).getD j default =
        match pend.lookup (j0 + j) with
        | some pv => { l.getD j default with purchased := pv.1, purchased_cost := pv.2 }
        | none => l.getD j default := by
  intro l
  induction l with
  | nil => intro j0 j hj; cases hj
  | cons g rs ih =>
    intro j0 j hj
    cases j with
    | zero =>
      rw [applyEditsFrom]
      simp only [List.getD_cons_zero, Nat.add_zero]
    | succ j =>
      rw [applyEditsFrom]
      simp only [List.getD_cons_succ]
      have harith : j0 + 1 + j = j0 + (j + 1) := by omega
      rw [ih (j0 + 1) j (by simpa using Nat.lt_of_succ_lt_succ hj), harith]

theorem lookup_zip_none (idxs : List Nat) :
    ∀ (vals : List (Bool × Rat)) (j : Nat), j ∉ idxs → (idxs.zip vals).lookup j = none := by
  induction idxs with
  | nil => intro vals j _; rfl
  | cons a as ih =>
    intro vals j hj
    cases vals with
    | nil => rfl
    | cons v vs =>
      show List.lookup j ((a, v) :: as.zip vs) = none
      rw [List.lookup]
      have hne : (j == a) = false := by
        refine beq_eq_false_iff_ne.mpr ?_
        intro h
        exact hj (h ▸ List.mem_cons_self a as)
      rw [hne]
      exact ih vs j fun h => hj (List.mem_cons_of_mem a h)

/-- C7: the inline-edit write-back changes only `purchased` and
`purchased_cost`: the ledger keeps its length, the six other fields of every
row are unchanged, and every row outside the filtered view (its position not
among the view's index labels) is wholly unchanged. -/
theorem C7_edit_frame (gifts : List GiftRecord) (fs : FilterSpec) (vals : List (Bool × Rat))
    (j : Nat) (hj : j < gifts.length) :
    (editPurchases gifts fs vals).length = gifts.length ∧
    ((editPurchases gifts fs vals).getD j default).date = (gifts.getD j default).date ∧
    ((editPurchases gifts fs vals).getD j default).year = (gifts.getD j default).year ∧
    ((editPurchases gifts fs vals).getD j default).recipient = (gifts.getD j default).recipient ∧
    ((editPurchases gifts fs vals).getD j default).occasion = (gifts.getD j default).occasion ∧
    ((editPurchases gifts fs vals).getD j default).idea = (gifts.getD j default).idea ∧
    ((editPurchases gifts fs vals).getD j default).budget = (gifts.getD j default).budget ∧
    (j ∉ trueIdxs (maskOf gifts fs) →
      (editPurchases gifts fs vals).getD j default = gifts.getD j default) := by
  have hget : (editPurchases gifts fs vals).getD j default =
      match ((trueIdxs (maskOf gifts fs)).zip vals).lookup j with
      | some pv => { gifts.getD j default with purchased := pv.1, purchased_cost := pv.2 }
      | none => gifts.getD j default := by
    have h0 := applyEditsFrom_getD ((trueIdxs (maskOf gifts fs)).zip vals) gifts 0 j hj
    rw [Nat.zero_add] at h0
    exact h0
  refine ⟨applyEditsFrom_length _ gifts 0, ?_⟩
  cases hlook : ((trueIdxs (maskOf gifts fs)).zip vals).lookup j with
  | some pv =>
    rw [hlook] at hget
    rw [hget]
    refine ⟨rfl, rfl, rfl, rfl, rfl, rfl, ?_⟩
    intro hnot
    exact absurd hlook (by rw [lookup_zip_none _ _ _ hnot]; simp)
  | none =>
    rw [hlook] at hget
    rw [hget]
    exact ⟨rfl, rfl, rfl, rfl, rfl, rfl, fun _ => rfl⟩

/-- Witness for C7 at a concrete ledger: the filter shows only the second
row; an edit of the view leaves row 0 wholly unchanged. -/
theorem C7_edit_frame_witness :
    0 < ([gW, gW2] : List GiftRecord).length ∧
    ((editPurchases [gW, gW2] fs7 [(false, mkRat 9 1)]).length = ([gW, gW2] : List GiftRecord).length ∧
     ((editPurchases [gW, gW2] fs7 [(false, mkRat 9 1)]).getD 0 default).date
        = (([gW, gW2] : List GiftRecord).getD 0 default).date ∧
     ((editPurchases [gW, gW2] fs7 [(false, mkRat 9 1)]).getD 0 default).year
        = (([gW, gW2] : List GiftRecord).getD 0 default).year ∧
     ((editPurchases [gW, gW2] fs7 [(false, mkRat 9 1)]).getD 0 default).recipient
        = (([gW, gW2] : List GiftRecord).getD 0 default).recipient ∧
     ((editPurchases [gW, gW2] fs7 [(false, mkRat 9 1)]).getD 0 default).occasion
        = (([gW, gW2] : List GiftRecord).getD 0 default).occasion ∧
     ((editPurchases [gW, gW2] fs7 [(false, mkRat 9 1)]).getD 0 default).idea
        = (([gW, gW2] : List GiftRecord).getD 0 default).idea ∧
     ((editPurchases [gW, gW2] fs7 [(false, mkRat 9 1)]).getD 0 default).budget
        = (([gW, gW2] : List GiftRecord).getD 0 default).budget ∧
     (0 ∉ trueIdxs (maskOf [gW, gW2] fs7) →
       (editPurchases [gW, gW2] fs7 [(false, mkRat 9 1)]).getD 0 default
         = ([gW, gW2] : List GiftRecord).getD 0 default)) :=
  ⟨by decide, C7_edit_frame [gW, gW2] fs7 [(false, mkRat 9 1)] 0 (by decide)⟩

/-! ### Claim C6 -/

/-- C6: import is all-or-nothing — when the byte stream does not parse as
CSV, the interaction surfaces the error flag and the session ledger is
exactly the prior ledger; `import_csv` yields no table at all. -/
theorem C6_import_all_or_nothing (today : Today) (prior : Table) (s : String)
    (h : read_csv s = none) :
    importStep today prior s = (prior, false) ∧ import_csv today s = none := by
  unfold importStep import_csv
  rw [h]
  exact ⟨rfl, rfl⟩

/-- Witness for C6: an unterminated quote is a parse error, and the prior
ledger survives untouched. -/
theorem C6_import_all_or_nothing_witness :
    read_csv "\"x" = none ∧
    (importStep T26 tW1 "\"x" = (tW1, false) ∧ import_csv T26 "\"x" = none) :=
  ⟨by decide, C6_import_all_or_nothing T26 tW1 "\"x" (by decide)⟩

/-! ### Claim C8 -/

theorem lookup_mem_snd {α β : Type} [BEq α] :
    ∀ (l : List (α × β)) (k : α) (v : β), l.lookup k = some v → v ∈ l.map Prod.snd := by
  intro l
  induction l with
  | nil => intro k v h; simp [List.lookup] at h
  | cons p es ih =>
    intro k v h
    obtain ⟨a, b⟩ := p
    rw [List.lookup] at h
    cases hk : (k == a) with
    | true =>
      rw [hk] at h
      simp only [Option.some.injEq] at h
      subst h
      exact List.mem_cons_self _ _
    | false =>
      rw [hk] at h
      exact List.mem_cons_of_mem _ (ih k v h)

theorem applyEditsFrom_mem (pend : List (Nat × (Bool × Rat))) :
    ∀ (l : List GiftRecord) (j0 : Nat) (r : GiftRecord), r ∈ applyEditsFrom j0 pend l →
      ∃ g ∈ l, r = g ∨ ∃ pv ∈ pend.map Prod.snd,
        r = { g with purchased := pv.1, purchased_cost := pv.2 } := by
  intro l
  induction l with
  | nil => intro j0 r hr; cases hr
  | cons g rs ih =>
    intro j0 r hr
    rw [applyEditsFrom] at hr
    rcases List.mem_cons.mp hr with hhead | htail
    · refine ⟨g, List.mem_cons_self g rs, ?_⟩
      cases hlook : pend.lookup j0 with
      | none =>
        rw [hlook] at hhead
        exact Or.inl hhead
      | some pv =>
        rw [hlook] at hhead
        exact Or.inr ⟨pv, lookup_mem_snd pend j0 pv hlook, hhead⟩
    · obtain ⟨g2, hg2, hcase⟩ := ih (j0 + 1) r htail
      exact ⟨g2, List.mem_cons_of_mem g hg2, hcase⟩

/-- C8 (amended): after normalization (hence after any import or add, which
both end in `ensure_df`) the ledger has exactly the canonical header and
every cell its declared dtype; the money columns hold values ≥ 0 whenever
every supplied numeric input is ≥ 0 — but negative numeric inputs are
preserved unclamped, so the unconditional "always ≥ 0" of the claim fails
(see the counterexample).  The edit path, which bypasses `ensure_df`,
likewise keeps both money fields ≥ 0 when the prior ledger and the edited
values are ≥ 0. -/
theorem C8_invariant (today : Today) (t : Table) (gifts : List GiftRecord) (fs : FilterSpec)
    (vals : List (Bool × Rat)) (h : t.wf)
    (hb : colCellsNonneg t "budget") (hcost : colCellsNonneg t "purchased_cost")
    (hg : ∀ g ∈ gifts, 0 ≤ g.budget ∧ 0 ≤ g.purchased_cost)
    (hv : ∀ pv ∈ vals, 0 ≤ pv.2) :
    typedTable (ensure_df today t) ∧
    (∀ c, c = "budget" ∨ c = "purchased_cost" →
      ∀ w ∈ ((ensure_df today t).colQ c).getD [], ∃ q, w = Value.float q ∧ 0 ≤ q) ∧
    (∀ r ∈ editPurchases gifts fs vals, 0 ≤ r.budget ∧ 0 ≤ r.purchased_cost) := by
  refine ⟨⟨rfl, ?_⟩, ?_, ?_⟩
  · -- every cell of the normalized frame has its declared dtype
    intro c hc v hvmem
    rw [ensure_df_colQ today t c hc] at hvmem
    simp only [Option.getD_some] at hvmem
    obtain ⟨w, _, rfl⟩ := List.mem_map.mp hvmem
    exact declaredOk_cellCoerce today c w hc
  · -- money columns: nonnegative when the inputs are
    intro c hc w hw
    have hcC : c ∈ COLUMNS := by rcases hc with rfl | rfl <;> decide
    rw [ensure_df_colQ today t c hcC,
      addMissingCols_colQ today t.nrows COLUMNS t (by decide) h.2.1 c hcC] at hw
    simp only [Option.getD_some] at hw
    obtain ⟨v, hvmem, rfl⟩ := List.mem_map.mp hw
    have hcell : cellCoerce today c v = .float (coerceMoneyCell v) := by
      rcases hc with rfl | rfl
      · exact cellCoerce_at_budget today v
      · exact cellCoerce_at_cost today v
    rw [hcell]
    refine ⟨coerceMoneyCell v, rfl, ?_⟩
    cases hcol : t.colQ c with
    | some col =>
      rw [hcol, Option.getD_some] at hvmem
      rcases hc with rfl | rfl
      · exact hb v (by rw [hcol]; exact hvmem)
      · exact hcost v (by rw [hcol]; exact hvmem)
    | none =>
      rw [hcol, Option.getD_none] at hvmem
      have hvd : v = defaultFor today c := List.eq_of_mem_replicate hvmem
      subst hvd
      have hdef : defaultFor today c = .float 0 := by
        rcases hc with rfl | rfl <;> rfl
      rw [hdef]
      show (0 : Rat) ≤ (toNumeric (.float 0)).getD 0
      exact le_refl 0
  · -- the edit path
    intro r hr
    obtain ⟨g, hgmem, hcase⟩ := applyEditsFrom_mem _ gifts 0 r hr
    rcases hcase with hcase | ⟨pv, hpv, hcase⟩
    · rw [hcase]
      exact hg g hgmem
    · rw [hcase]
      refine ⟨(hg g hgmem).1, ?_⟩
      obtain ⟨pair, hpair, hsnd⟩ := List.mem_map.mp hpv
      obtain ⟨k, pv2⟩ := pair
      have hpv2 : pv2 ∈ vals := (List.of_mem_zip hpair).2
      show 0 ≤ pv.2
      rw [← hsnd]
      exact hv pv2 hpv2

/-- Witness for C8 at a concrete frame, ledger and edit. -/
theorem C8_invariant_witness :
    tW8.wf ∧ colCellsNonneg tW8 "budget" ∧ colCellsNonneg tW8 "purchased_cost" ∧
    (∀ g ∈ [gW], 0 ≤ g.budget ∧ 0 ≤ g.purchased_cost) ∧
    (∀ pv ∈ [(true, mkRat 1 2)], 0 ≤ pv.2) ∧
    (typedTable (ensure_df T26 tW8) ∧
     (∀ c, c = "budget" ∨ c = "purchased_cost" →
       ∀ w ∈ ((ensure_df T26 tW8).colQ c).getD [], ∃ q, w = Value.float q ∧ 0 ≤ q) ∧
     (∀ r ∈ editPurchases [gW] fsW [(true, mkRat 1 2)], 0 ≤ r.budget ∧ 0 ≤ r.purchased_cost)) :=
  ⟨by decide, by decide, by decide, by decide, by decide,
    C8_invariant T26 tW8 [gW] fsW [(true, mkRat 1 2)] (by decide) (by decide) (by decide)
      (by decide) (by decide)⟩

/-- C8 as stated is false on the code: normalization does not clamp
negative numeric input — a budget cell `"-5"` survives as the negative
float −5.0. -/
theorem C8_counterexample :
    (ensure_df T26 (Table.mk ["budget"] [[Value.str "-5"]])).cellAt "budget" 0
      = Value.float (mkRat (-5) 1) ∧
    mkRat (-5) 1 < 0 := by
  refine ⟨by decide, by decide⟩

/-! ### Digit rendering and parsing round trips -/

theorem mem_renderNatAux (fuel : Nat) :
    ∀ (n : Nat), ∀ c ∈ renderNatAux fuel n, ∃ d, d < 10 ∧ c = digitChar d := by
  induction fuel with
  | zero => intro n c hc; cases hc
  | succ fuel ih =>
    intro n c hc
    rw [renderNatAux] at hc
    by_cases h : n < 10
    · rw [if_pos h] at hc
      obtain rfl := List.mem_singleton.mp hc
      exact ⟨n, h, rfl⟩
    · rw [if_neg h] at hc
      rcases List.mem_append.mp hc with h2 | h2
      · exact ih (n / 10) c h2
      · obtain rfl := List.mem_singleton.mp h2
        exact ⟨n % 10, Nat.mod_lt n (by omega), rfl⟩

theorem digitChar_facts : ∀ d, d < 10 →
    digitVal (digitChar d) = some d ∧ isDig (digitChar d) = true ∧
    (digitChar d == '-') = false ∧ (digitChar d == '+') = false ∧
    (digitChar d == '.') = false ∧ (digitChar d == ',') = false ∧
    (digitChar d == '"') = false ∧ (digitChar d == '\n') = false ∧
    (digitChar d == '\r') = false ∧ isSpace (digitChar d) = false ∧
    (digitChar d == 'e') = false ∧ (digitChar d == 'E') = false := by decide

theorem natOfDigitsAux_append (l1 l2 : List Char) :
    ∀ acc, natOfDigitsAux acc (l1 ++ l2) = natOfDigitsAux (natOfDigitsAux acc l1) l2 := by
  induction l1 with
  | nil => intro acc; rfl
  | cons c cs ih =>
    intro acc
    rw [List.cons_append]
    show natOfDigitsAux (acc * 10 + (digitVal c).getD 0) (cs ++ l2) = _
    exact ih (acc * 10 + (digitVal c).getD 0)

theorem natOfDigitsAux_renderNatAux :
    ∀ (fuel n acc : Nat), n < 10 ^ fuel →
      natOfDigitsAux acc (renderNatAux fuel n)
        = acc * 10 ^ (renderNatAux fuel n).length + n := by
  intro fuel
  induction fuel with
  | zero =>
    intro n acc h
    have hn : n = 0 := by simpa using h
    subst hn
    simp [renderNatAux, natOfDigitsAux]
  | succ fuel ih =>
    intro n acc h
    rw [renderNatAux]
    by_cases h10 : n < 10
    · rw [if_pos h10]
      have hd := (digitChar_facts n h10).1
      simp only [natOfDigitsAux, hd, Option.getD_some, List.length_singleton, pow_one]
    · rw [if_neg h10]
      have hdiv : n / 10 < 10 ^ fuel := by
        rw [Nat.div_lt_iff_lt_mul (by norm_num)]
        calc n < 10 ^ (fuel + 1) := h
          _ = 10 ^ fuel * 10 := by rw [pow_succ]
      rw [natOfDigitsAux_append, ih (n / 10) acc hdiv]
      have hd := (digitChar_facts (n % 10) (Nat.mod_lt n (by omega))).1
      simp only [natOfDigitsAux, hd, Option.getD_some, List.length_append,
        List.length_singleton]
      rw [pow_succ, ← mul_assoc]
      have hgen : ∀ A : Nat, (A + n / 10) * 10 + n % 10 = A * 10 + n := by
        intro A
        omega
      exact hgen (acc * 10 ^ (renderNatAux fuel (n / 10)).length)

theorem natOfDigits_renderNatChars (n : Nat) : natOfDigits (renderNatChars n) = n := by
  have h : n < 10 ^ (n + 1) :=
    lt_of_lt_of_le (Nat.lt_pow_self (by norm_num) n)
      (Nat.pow_le_pow_right (by norm_num) (Nat.le_succ n))
  have h2 := natOfDigitsAux_renderNatAux (n + 1) n 0 h
  simpa [natOfDigits, renderNatChars] using h2

theorem renderNatChars_ne_nil (n : Nat) : renderNatChars n ≠ [] := by
  rw [renderNatChars, renderNatAux]
  by_cases h : n < 10
  · rw [if_pos h]
    simp
  · rw [if_neg h]
    simp

theorem mem_renderNatChars (n : Nat) : ∀ c ∈ renderNatChars n, ∃ d, d < 10 ∧ c = digitChar d :=
  mem_renderNatAux (n + 1) n

theorem renderNatAux_length_le :
    ∀ (fuel n k : Nat), 1 ≤ k → n < 10 ^ k → (renderNatAux fuel n).length ≤ k := by
  intro fuel
  induction fuel with
  | zero =>
    intro n k _ _
    simp [renderNatAux]
  | succ fuel ih =>
    intro n k h1 h2
    rw [renderNatAux]
    by_cases h10 : n < 10
    · rw [if_pos h10]
      simpa using h1
    · rw [if_neg h10]
      have hk2 : 2 ≤ k := by
        by_contra hlt
        have hk1 : k = 1 := by omega
        subst hk1
        rw [pow_one] at h2
        omega
      have hdiv : n / 10 < 10 ^ (k - 1) := by
        rw [Nat.div_lt_iff_lt_mul (by norm_num)]
        calc n < 10 ^ k := h2
          _ = 10 ^ (k - 1) * 10 := by
              conv_lhs => rw [show k = (k - 1) + 1 by omega]
              rw [pow_succ]
      have h3 := ih (n / 10) (k - 1) (by omega) hdiv
      simp only [List.length_append, List.length_singleton]
      omega

theorem renderNatChars_length_le (n k : Nat) (h1 : 1 ≤ k) (h2 : n < 10 ^ k) :
    (renderNatChars n).length ≤ k :=
  renderNatAux_length_le (n + 1) n k h1 h2

theorem natOfDigitsAux_replicate_zero (j : Nat) :
    ∀ acc, natOfDigitsAux acc (List.replicate j '0') = acc * 10 ^ j := by
  induction j with
  | zero =>
    intro acc
    simp [natOfDigitsAux]
  | succ j ih =>
    intro acc
    rw [List.replicate_succ]
    show natOfDigitsAux (acc * 10 + (digitVal '0').getD 0) (List.replicate j '0') = _
    rw [ih]
    have h0 : (digitVal '0').getD 0 = 0 := by decide
    rw [h0]
    ring

/-! ### Span and strip facts -/

theorem takeWhile_exact (p : Char → Bool) :
    ∀ (ds rest : List Char), (∀ c ∈ ds, p c = true) →
      (∀ c0, rest.head? = some c0 → p c0 = false) →
      (ds ++ rest).takeWhile p = ds := by
  intro ds
  induction ds with
  | nil =>
    intro rest _ hrest
    cases rest with
    | nil => rfl
    | cons c0 cs => exact List.takeWhile_cons_of_neg (by simp [hrest c0 rfl])
  | cons d ds ih =>
    intro rest hds hrest
    rw [List.cons_append, List.takeWhile_cons_of_pos (hds d (List.mem_cons_self d ds))]
    rw [ih rest (fun c hc => hds c (List.mem_cons_of_mem d hc)) hrest]

theorem dropWhile_exact (p : Char → Bool) :
    ∀ (ds rest : List Char), (∀ c ∈ ds, p c = true) →
      (∀ c0, rest.head? = some c0 → p c0 = false) →
      (ds ++ rest).dropWhile p = rest := by
  intro ds
  induction ds with
  | nil =>
    intro rest _ hrest
    cases rest with
    | nil => rfl
    | cons c0 cs => exact List.dropWhile_cons_of_neg (by simp [hrest c0 rfl])
  | cons d ds ih =>
    intro rest hds hrest
    rw [List.cons_append, List.dropWhile_cons_of_pos (hds d (List.mem_cons_self d ds))]
    exact ih rest (fun c hc => hds c (List.mem_cons_of_mem d hc)) hrest

theorem span_exact (p : Char → Bool) (ds rest : List Char)
    (hds : ∀ c ∈ ds, p c = true)
    (hrest : ∀ c0, rest.head? = some c0 → p c0 = false) :
    (ds ++ rest).span p = (ds, rest) := by
  rw [List.span_eq_take_drop, takeWhile_exact p ds rest hds hrest,
    dropWhile_exact p ds rest hds hrest]

theorem dropWhile_head_false (p : Char → Bool) (l : List Char)
    (h : ∀ c0, l.head? = some c0 → p c0 = false) : l.dropWhile p = l := by
  cases l with
  | nil => rfl
  | cons c cs => exact List.dropWhile_cons_of_neg (by simp [h c rfl])

theorem stripChars_eq_self (l : List Char)
    (hh : ∀ c0, l.head? = some c0 → isSpace c0 = false)
    (hl : ∀ c0, l.getLast? = some c0 → isSpace c0 = false) : stripChars l = l := by
  unfold stripChars
  rw [dropWhile_head_false isSpace l hh]
  rw [dropWhile_head_false isSpace l.reverse
    (fun c0 hc0 => hl c0 (by rwa [List.head?_reverse] at hc0))]
  exact List.reverse_reverse l

theorem mem_of_headQ {l : List Char} {c : Char} (h : l.head? = some c) : c ∈ l := by
  cases l with
  | nil => cases h
  | cons a as =>
    simp only [List.head?_cons, Option.some.injEq] at h
    subst h
    exact List.mem_cons_self a as

theorem mem_of_getLastQ : ∀ (l : List Char) (c : Char), l.getLast? = some c → c ∈ l := by
  intro l
  induction l with
  | nil => intro c h; cases h
  | cons a as ih =>
    intro c h
    cases as with
    | nil =>
      simp only [List.getLast?_singleton, Option.some.injEq] at h
      subst h
      exact List.mem_cons_self a []
    | cons b bs =>
      rw [List.getLast?_cons_cons] at h
      exact List.mem_cons_of_mem a (ih c h)

theorem stripChars_eq_of_no_space (l : List Char) (h : ∀ c ∈ l, isSpace c = false) :
    stripChars l = l :=
  stripChars_eq_self l (fun c0 hc0 => h c0 (mem_of_headQ hc0))
    (fun c0 hc0 => h c0 (mem_of_getLastQ l c0 hc0))

theorem parseSignum_dash (cs : List Char) : parseSignum ('-' :: cs) = (true, cs) := rfl

theorem parseSignum_other (c : Char) (cs : List Char)
    (h1 : (c == '-') = false) (h2 : (c == '+') = false) :
    parseSignum (c :: cs) = (false, c :: cs) := by
  simp [parseSignum, h1, h2]

theorem span_all (p : Char → Bool) (l : List Char) (h : ∀ c ∈ l, p c = true) :
    l.span p = (l, []) := by
  have h2 := span_exact p l [] h (fun c0 hc0 => by cases hc0)
  rwa [List.append_nil] at h2

theorem natOfDigitsAux_renderNatChars (x acc : Nat) :
    natOfDigitsAux acc (renderNatChars x) = acc * 10 ^ (renderNatChars x).length + x := by
  have h : x < 10 ^ (x + 1) :=
    lt_of_lt_of_le (Nat.lt_pow_self (by norm_num) x)
      (Nat.pow_le_pow_right (by norm_num) (Nat.le_succ x))
  exact natOfDigitsAux_renderNatAux (x + 1) x acc h

theorem parseSignum_renderNat (n : Nat) :
    parseSignum (renderNatChars n) = (false, renderNatChars n) := by
  cases hl : renderNatChars n with
  | nil => exact absurd hl (renderNatChars_ne_nil n)
  | cons c cs =>
    obtain ⟨d, hd, rfl⟩ : ∃ d, d < 10 ∧ c = digitChar d := by
      refine mem_renderNatChars n c ?_
      rw [hl]
      exact List.mem_cons_self c cs
    exact parseSignum_other _ cs (digitChar_facts d hd).2.2.1 (digitChar_facts d hd).2.2.2.1

theorem isIntLikeChars_intChars (n : Int) : isIntLikeChars (intChars n) = true := by
  have hdig : ∀ c ∈ renderNatChars n.natAbs, isDig c = true := by
    intro c hc
    obtain ⟨d, hd, rfl⟩ := mem_renderNatChars n.natAbs c hc
    exact (digitChar_facts d hd).2.1
  have hne := renderNatChars_ne_nil n.natAbs
  have hie : (renderNatChars n.natAbs).isEmpty = false := by
    cases hl : renderNatChars n.natAbs with
    | nil => exact absurd hl hne
    | cons a l => rfl
  unfold isIntLikeChars intChars
  by_cases hneg : n < 0
  · rw [if_pos hneg, List.singleton_append, parseSignum_dash]
    simp only [hie, Bool.not_false, Bool.true_and, List.all_eq_true]
    exact hdig
  · rw [if_neg hneg, List.nil_append, parseSignum_renderNat]
    simp only [hie, Bool.not_false, Bool.true_and, List.all_eq_true]
    exact hdig

theorem parseIntChars_intChars (n : Int) : parseIntChars (intChars n) = n := by
  unfold parseIntChars intChars
  by_cases hneg : n < 0
  · rw [if_pos hneg, List.singleton_append, parseSignum_dash]
    simp [natOfDigits_renderNatChars]
    rw [abs_of_nonpos (le_of_lt hneg)]
    ring
  · rw [if_neg hneg, List.nil_append, parseSignum_renderNat]
    simp [natOfDigits_renderNatChars]
    omega

theorem parseNumericChars_shape (neg : Bool) (ds fs : List Char)
    (hds : ∀ c ∈ ds, ∃ d, d < 10 ∧ c = digitChar d)
    (hfs : ∀ c ∈ fs, ∃ d, d < 10 ∧ c = digitChar d)
    (hdsne : ds ≠ []) (hfsne : fs ≠ []) :
    parseNumericChars ((if neg then ['-'] else []) ++ ds ++ '.' :: fs)
      = some (ratOfParts neg (natOfDigits (ds ++ fs)) fs.length 0) := by
  have hdsdig : ∀ c ∈ ds, isDig c = true := by
    intro c hc
    obtain ⟨d, hd, rfl⟩ := hds c hc
    exact (digitChar_facts d hd).2.1
  have hfsdig : ∀ c ∈ fs, isDig c = true := by
    intro c hc
    obtain ⟨d, hd, rfl⟩ := hfs c hc
    exact (digitChar_facts d hd).2.1
  obtain ⟨c0, ds', rfl⟩ : ∃ c0 ds', ds = c0 :: ds' := by
    cases ds with
    | nil => exact absurd rfl hdsne
    | cons a l => exact ⟨a, l, rfl⟩
  have htail : ∀ c ∈ c0 :: (ds' ++ '.' :: fs), isSpace c = false := by
    intro c hc
    rcases List.mem_cons.mp hc with rfl | h2
    · obtain ⟨d, hd, rfl⟩ := hds c (List.mem_cons_self _ _)
      exact (digitChar_facts d hd).2.2.2.2.2.2.2.2.2.1
    · rcases List.mem_append.mp h2 with h3 | h3
      · obtain ⟨d, hd, rfl⟩ := hds c (List.mem_cons_of_mem c0 h3)
        exact (digitChar_facts d hd).2.2.2.2.2.2.2.2.2.1
      · rcases List.mem_cons.mp h3 with rfl | h4
        · decide
        · obtain ⟨d, hd, rfl⟩ := hfs c h4
          exact (digitChar_facts d hd).2.2.2.2.2.2.2.2.2.1
  have hspan1 : ((c0 :: ds') ++ '.' :: fs).span isDig = (c0 :: ds', '.' :: fs) :=
    span_exact isDig (c0 :: ds') ('.' :: fs) hdsdig
      (by
        intro ch hch
        simp only [List.head?_cons, Option.some.injEq] at hch
        subst hch
        decide)
  have hspan1' : (c0 :: (ds' ++ '.' :: fs)).span isDig = (c0 :: ds', '.' :: fs) := by
    rw [← List.cons_append]
    exact hspan1
  have hspan2 : fs.span isDig = (fs, []) := span_all isDig fs hfsdig
  have hie : (c0 :: ds').isEmpty = false := rfl
  have hfse : fs.isEmpty = false := by
    cases fs with
    | nil => exact absurd rfl hfsne
    | cons a l => rfl
  cases neg with
  | true =>
    show parseNumericChars ('-' :: (c0 :: (ds' ++ '.' :: fs))) = _
    have hall2 : ∀ c ∈ '-' :: (c0 :: (ds' ++ '.' :: fs)), isSpace c = false := by
      intro c hc
      rcases List.mem_cons.mp hc with rfl | h2
      · decide
      · exact htail c h2
    have hstrip2 := stripChars_eq_of_no_space _ hall2
    simp only [parseNumericChars, hstrip2, parseSignum_dash, hspan1', hspan2, hie, hfse,
      Bool.false_and, parseExpPart, List.cons_append]
    rfl
  | false =>
    show parseNumericChars (c0 :: (ds' ++ '.' :: fs)) = _
    have hstrip2 := stripChars_eq_of_no_space _ htail
    obtain ⟨d0, hd0, hc0⟩ := hds c0 (List.mem_cons_self c0 ds')
    have hsgn : parseSignum (c0 :: (ds' ++ '.' :: fs)) = (false, c0 :: (ds' ++ '.' :: fs)) := by
      rw [hc0]
      exact parseSignum_other (digitChar d0) _ (digitChar_facts d0 hd0).2.2.1
        (digitChar_facts d0 hd0).2.2.2.1
    simp only [parseNumericChars, hstrip2, hsgn, hspan1', hspan2, hie, hfse,
      Bool.false_and, parseExpPart, List.cons_append]
    rfl

theorem ratOfParts_zero (neg : Bool) (m k : Nat) :
    ratOfParts neg m k 0 = mkRat (if neg then -(m : Int) else (m : Int)) (10 ^ k) := by
  show ratOfParts neg m k (Int.ofNat 0) = _
  unfold ratOfParts
  norm_num

theorem mkRat_eq_of_cross (n : Int) (d : Nat) (hd : d ≠ 0) (q : Rat)
    (h : n * q.den = q.num * d) : mkRat n d = q := by
  rw [Rat.mkRat_eq_div, ← Rat.num_div_den q]
  rw [div_eq_div_iff (by exact_mod_cast hd) (by exact_mod_cast q.den_nz)]
  exact_mod_cast h

theorem parseNumericChars_floatChars (q : Rat) (hq : IsDecRat q) :
    parseNumericChars (floatChars q) = some q := by
  have hk1 : 1 ≤ decExp q := le_max_left 1 _
  rw [IsDecRat] at hq
  set k := decExp q with hk
  set m := q.num.natAbs * 10 ^ k / q.den with hm
  set frac := renderNatChars (m % 10 ^ k) with hfrac
  set ipart := renderNatChars (m / 10 ^ k) with hipart
  set pad := List.replicate (k - frac.length) '0' with hpad
  have hfloat : floatChars q
      = (if q.num < 0 then ['-'] else []) ++ ipart ++ '.' :: (pad ++ frac) := rfl
  have hipdig : ∀ c ∈ ipart, ∃ d, d < 10 ∧ c = digitChar d := mem_renderNatChars _
  have hfsdig : ∀ c ∈ pad ++ frac, ∃ d, d < 10 ∧ c = digitChar d := by
    intro c hc
    rcases List.mem_append.mp hc with h1 | h1
    · obtain rfl := List.eq_of_mem_replicate h1
      exact ⟨0, by norm_num, rfl⟩
    · exact mem_renderNatChars _ c h1
  have hipne : ipart ≠ [] := renderNatChars_ne_nil _
  have hfsne : pad ++ frac ≠ [] := by
    intro h
    exact renderNatChars_ne_nil _ (List.append_eq_nil.mp h).2
  have hfrlen : frac.length ≤ k :=
    renderNatChars_length_le _ k hk1 (Nat.mod_lt _ (pow_pos (by norm_num) k))
  have hlen : (pad ++ frac).length = k := by
    rw [List.length_append, hpad, List.length_replicate]
    omega
  have hM : natOfDigits (ipart ++ (pad ++ frac)) = m := by
    rw [natOfDigits, natOfDigitsAux_append, natOfDigitsAux_append]
    rw [show natOfDigitsAux 0 ipart = m / 10 ^ k from by
      have h2 := natOfDigitsAux_renderNatChars (m / 10 ^ k) 0
      simpa using h2]
    rw [hpad, natOfDigitsAux_replicate_zero, natOfDigitsAux_renderNatChars]
    rw [mul_assoc, ← pow_add]
    rw [show k - frac.length + frac.length = k from by omega]
    rw [Nat.mul_comm]
    exact Nat.div_add_mod m (10 ^ k)
  have hdvd : q.den ∣ q.num.natAbs * 10 ^ k := hq.mul_left q.num.natAbs
  have hNat : m * q.den = q.num.natAbs * 10 ^ k := Nat.div_mul_cancel hdvd
  have hcast : (m : Int) * (q.den : Int) = (q.num.natAbs : Int) * ((10 : Int) ^ k) := by
    exact_mod_cast hNat
  have hpow : ((10 : Nat) ^ k : Nat) ≠ 0 := Nat.pos_iff_ne_zero.mp (pow_pos (by norm_num) k)
  by_cases hneg : q.num < 0
  · have hfloat2 : floatChars q = (if true then ['-'] else []) ++ ipart ++ '.' :: (pad ++ frac) := by
      rw [hfloat, if_pos hneg]
      rfl
    rw [hfloat2, parseNumericChars_shape true ipart (pad ++ frac) hipdig hfsdig hipne hfsne]
    rw [hM, hlen, ratOfParts_zero]
    refine congrArg some ?_
    refine mkRat_eq_of_cross (-(m : Int)) (10 ^ k) hpow q ?_
    have habs : (q.num.natAbs : Int) = -q.num := by omega
    push_cast
    calc (-(m : Int)) * q.den = -((m : Int) * q.den) := by ring
      _ = -((q.num.natAbs : Int) * ((10 : Int) ^ k)) := by rw [hcast]
      _ = -((-q.num) * ((10 : Int) ^ k)) := by rw [habs]
      _ = q.num * ((10 : Int) ^ k) := by ring
  · have hfloat2 : floatChars q = (if false then ['-'] else []) ++ ipart ++ '.' :: (pad ++ frac) := by
      rw [hfloat, if_neg hneg]
      rfl
    rw [hfloat2, parseNumericChars_shape false ipart (pad ++ frac) hipdig hfsdig hipne hfsne]
    rw [hM, hlen, ratOfParts_zero]
    refine congrArg some ?_
    refine mkRat_eq_of_cross ((m : Int)) (10 ^ k) hpow q ?_
    have habs : (q.num.natAbs : Int) = q.num := by omega
    push_cast
    calc (m : Int) * q.den = (q.num.natAbs : Int) * ((10 : Int) ^ k) := hcast
      _ = q.num * ((10 : Int) ^ k) := by rw [habs]

/-! ### CSV field, line and file round trips -/

theorem needsQuote_false_comma {c : Char} (h : needsQuote c = false) :
    (c == ',') = false ∧ (c == '"') = false := by
  unfold needsQuote at h
  constructor <;> {
    cases hc : (c == ',') <;> cases hq : (c == '"') <;>
      simp [hc, hq] at h ⊢
  }

theorem parseFields_plain_field :
    ∀ (f rest cur : List Char) (acc : List (List Char)),
      (∀ c ∈ f, needsQuote c = false) →
      parseFieldsAux (f ++ rest) cur .plain acc = parseFieldsAux rest (cur ++ f) .plain acc := by
  intro f
  induction f with
  | nil =>
    intro rest cur acc _
    rw [List.nil_append, List.append_nil]
  | cons c cs ih =>
    intro rest cur acc hf
    have h1 := (needsQuote_false_comma (hf c (List.mem_cons_self c cs))).1
    have h2 := (needsQuote_false_comma (hf c (List.mem_cons_self c cs))).2
    rw [List.cons_append]
    rw [show parseFieldsAux (c :: (cs ++ rest)) cur .plain acc
        = parseFieldsAux (cs ++ rest) (cur ++ [c]) .plain acc from by
      simp [parseFieldsAux, h1, h2]]
    rw [ih rest (cur ++ [c]) acc (fun a ha => hf a (List.mem_cons_of_mem c ha))]
    rw [← List.append_cons]

theorem parseFields_join :
    ∀ (fields : List (List Char)) (f0 cur : List Char) (acc : List (List Char)),
      (∀ f ∈ f0 :: fields, ∀ c ∈ f, needsQuote c = false) →
      parseFieldsAux (joinComma (f0 :: fields)) cur .plain acc
        = some (acc ++ [cur ++ f0] ++ fields) := by
  intro fields
  induction fields with
  | nil =>
    intro f0 cur acc hplain
    have h2 := parseFields_plain_field f0 [] cur acc (hplain f0 (List.mem_cons_self f0 []))
    rw [List.append_nil] at h2
    show parseFieldsAux f0 cur .plain acc = _
    rw [h2]
    simp [parseFieldsAux]
  | cons f1 fs ih =>
    intro f0 cur acc hplain
    show parseFieldsAux (f0 ++ ',' :: joinComma (f1 :: fs)) cur .plain acc = _
    rw [parseFields_plain_field f0 _ cur acc (hplain f0 (List.mem_cons_self f0 _))]
    rw [show parseFieldsAux (',' :: joinComma (f1 :: fs)) (cur ++ f0) .plain acc
        = parseFieldsAux (joinComma (f1 :: fs)) [] .plain (acc ++ [cur ++ f0]) from by
      simp [parseFieldsAux]]
    rw [ih f1 [] (acc ++ [cur ++ f0]) (fun f hf => hplain f (List.mem_cons_of_mem f0 hf))]
    simp

theorem parseLine_render (fields : List (List Char))
    (hplain : ∀ f ∈ fields, ∀ c ∈ f, needsQuote c = false)
    (hne : fields ≠ []) :
    parseLineChars (renderLineChars fields) = some fields := by
  have hqf : fields.map quoteField = fields := by
    have h1 : ∀ f ∈ fields, quoteField f = f := by
      intro f hf
      unfold quoteField
      rw [if_neg]
      intro hq
      simp only [List.any_eq_true] at hq
      obtain ⟨c, hc, hq2⟩ := hq
      rw [hplain f hf c hc] at hq2
      cases hq2
    calc fields.map quoteField = fields.map id := List.map_congr_left h1
      _ = fields := List.map_id fields
  obtain ⟨f0, fs, rfl⟩ : ∃ f0 fs, fields = f0 :: fs := by
    cases fields with
    | nil => exact absurd rfl hne
    | cons a l => exact ⟨a, l, rfl⟩
  unfold parseLineChars renderLineChars
  rw [hqf, parseFields_join fs f0 [] [] hplain]
  simp

theorem splitOnChar_not_mem (sep : Char) :
    ∀ (l1 rest : List Char), sep ∉ l1 →
      splitOnChar sep (l1 ++ sep :: rest) = l1 :: splitOnChar sep rest := by
  intro l1
  induction l1 with
  | nil =>
    intro rest _
    show splitOnChar sep (sep :: rest) = _
    simp [splitOnChar]
  | cons c cs ih =>
    intro rest hmem
    have hc : (c == sep) = false := by
      refine beq_eq_false_iff_ne.mpr ?_
      intro h
      exact hmem (h ▸ List.mem_cons_self c cs)
    have hcs : sep ∉ cs := fun h => hmem (List.mem_cons_of_mem c h)
    rw [List.cons_append]
    show splitOnChar sep (c :: (cs ++ sep :: rest)) = _
    rw [show splitOnChar sep (c :: (cs ++ sep :: rest))
        = match splitOnChar sep (cs ++ sep :: rest) with
          | [] => [[c]]
          | l :: ls => (c :: l) :: ls from by
      simp [splitOnChar, hc]]
    rw [ih rest hcs]

theorem joinLines_cons (l : List Char) (ls : List (List Char)) :
    joinLines (l :: ls) = l ++ '\n' :: joinLines ls := rfl

theorem splitOnChar_joinLines :
    ∀ (ls : List (List Char)), (∀ l ∈ ls, '\n' ∉ l) →
      splitOnChar '\n' (joinLines ls) = ls ++ [[]] := by
  intro ls
  induction ls with
  | nil => intro _; rfl
  | cons l ls ih =>
    intro h
    rw [joinLines_cons, splitOnChar_not_mem '\n' l (joinLines ls) (h l (List.mem_cons_self l ls))]
    rw [ih (fun a ha => h a (List.mem_cons_of_mem l ha))]
    rfl

theorem dropCR_no_cr (l : List Char) (h : '\r' ∉ l) : dropCR l = l := by
  unfold dropCR
  cases hrev : l.reverse with
  | nil => rfl
  | cons c rest =>
    have hc : (c == '\r') = false := by
      refine beq_eq_false_iff_ne.mpr ?_
      intro he
      subst he
      refine h ?_
      rw [← List.mem_reverse, hrev]
      exact List.mem_cons_self _ _
    show (if (c == '\r') = true then rest.reverse else l) = l
    rw [hc]
    simp

theorem parseAllLines_render :
    ∀ (rows : List (List (List Char))),
      (∀ r ∈ rows, (∀ f ∈ r, ∀ c ∈ f, needsQuote c = false) ∧ r ≠ []) →
      parseAllLines (rows.map renderLineChars) = some rows := by
  intro rows
  induction rows with
  | nil => intro _; rfl
  | cons r rs ih =>
    intro h
    rw [List.map_cons]
    show parseAllLines (renderLineChars r :: rs.map renderLineChars) = _
    rw [show parseAllLines (renderLineChars r :: rs.map renderLineChars)
        = match parseLineChars (renderLineChars r), parseAllLines (rs.map renderLineChars) with
          | some f, some fs => some (f :: fs)
          | _, _ => none from rfl]
    rw [parseLine_render r (h r (List.mem_cons_self r rs)).1 (h r (List.mem_cons_self r rs)).2]
    rw [ih (fun a ha => h a (List.mem_cons_of_mem r ha))]

/-! ### Column reconstruction -/

theorem getD_map_lt {α β : Type} (f : α → β) :
    ∀ (l : List α) (j : Nat) (d : β) (d2 : α), j < l.length →
      (l.map f).getD j d = f (l.getD j d2) := by
  intro l
  induction l with
  | nil => intro j d d2 hj; cases hj
  | cons a as ih =>
    intro j d d2 hj
    cases j with
    | zero => simp
    | succ j =>
      simp only [List.map_cons, List.getD_cons_succ]
      exact ih j d d2 (by simpa using Nat.lt_of_succ_lt_succ hj)

theorem range_map_getD {α β : Type} (g : α → β) (d : α) :
    ∀ (l : List α), (List.range l.length).map (fun i => g (l.getD i d)) = l.map g := by
  intro l
  induction l with
  | nil => rfl
  | cons a as ih =>
    rw [List.length_cons, List.range_succ_eq_map]
    rw [List.map_cons, List.map_map]
    rw [List.map_cons]
    refine congrArg (g a :: ·) ?_
    calc (List.range as.length).map ((fun i => g ((a :: as).getD i d)) ∘ Nat.succ)
        = (List.range as.length).map (fun i => g (as.getD i d)) := by
          refine List.map_congr_left fun i _ => ?_
          simp [Function.comp]
      _ = as.map g := ih

theorem mem_of_containsB {s : String} {L : List String} (h : L.contains s = true) : s ∈ L := by
  simpa using h

theorem na_facts : ∀ na ∈ NA_SET,
    isIntLikeChars na.data = false ∧ isFloatLikeChars na.data = false ∧
    isBoolLikeChars na.data = false := by decide

theorem naLift_of_intLike (l : List Char) (h : isIntLikeChars l = true) : naLift l = some l := by
  unfold naLift
  rw [if_neg]
  intro hcon
  have hmem := mem_of_containsB hcon
  have := (na_facts (String.mk l) hmem).1
  rw [show (String.mk l).data = l from rfl] at this
  rw [this] at h
  cases h

theorem naLift_of_floatLike (l : List Char) (h : isFloatLikeChars l = true) : naLift l = some l := by
  unfold naLift
  rw [if_neg]
  intro hcon
  have hmem := mem_of_containsB hcon
  have := (na_facts (String.mk l) hmem).2.1
  rw [show (String.mk l).data = l from rfl] at this
  rw [this] at h
  cases h

theorem naLift_of_boolLike (l : List Char) (h : isBoolLikeChars l = true) : naLift l = some l := by
  unfold naLift
  rw [if_neg]
  intro hcon
  have hmem := mem_of_containsB hcon
  have := (na_facts (String.mk l) hmem).2.2
  rw [show (String.mk l).data = l from rfl] at this
  rw [this] at h
  cases h

theorem naLift_nil : naLift ([] : List Char) = none := by decide

theorem naLift_plain (l : List Char) (h : csvPlainB l = true) : naLift l = some l := by
  unfold csvPlainB at h
  simp only [Bool.and_eq_true, Bool.not_eq_true'] at h
  unfold naLift
  rw [h.1.1.1.1.2]
  simp

theorem csvPlainB_parts (l : List Char) (h : csvPlainB l = true) :
    l.isEmpty = false ∧ isIntLikeChars l = false ∧ isFloatLikeChars l = false ∧
    isBoolLikeChars l = false := by
  unfold csvPlainB at h
  simp only [Bool.and_eq_true, Bool.not_eq_true'] at h
  exact ⟨h.1.1.1.1.1, h.1.1.1.2, h.1.1.2, h.1.2⟩

theorem isFloatLikeChars_floatChars (q : Rat) (hq : IsDecRat q) :
    isFloatLikeChars (floatChars q) = true := by
  unfold isFloatLikeChars
  rw [parseNumericChars_floatChars q hq]
  rfl

theorem dot_mem_floatChars (q : Rat) : '.' ∈ floatChars q := by
  show '.' ∈ (if q.num < 0 then ['-'] else []) ++
    renderNatChars (q.num.natAbs * 10 ^ decExp q / q.den / 10 ^ decExp q) ++ '.' :: _
  rw [List.append_assoc]
  refine List.mem_append_right _ ?_
  refine List.mem_append_right _ ?_
  exact List.mem_cons_self _ _

theorem dot_not_intLike (l : List Char) (h : '.' ∈ l) : isIntLikeChars l = false := by
  cases l with
  | nil => cases h
  | cons c cs =>
    have hdotsgn : '.' ∈ (parseSignum (c :: cs)).2 := by
      show '.' ∈ (if (c == '-') = true then ((true, cs) : Bool × List Char)
        else if (c == '+') = true then ((false, cs) : Bool × List Char)
        else ((false, c :: cs) : Bool × List Char)).2
      by_cases h1 : (c == '-') = true
      · rw [if_pos h1]
        show '.' ∈ cs
        rcases List.mem_cons.mp h with hdot | hdot
        · rw [show c = '-' from by simpa using h1] at hdot
          cases hdot
        · exact hdot
      · rw [if_neg h1]
        by_cases h2 : (c == '+') = true
        · rw [if_pos h2]
          show '.' ∈ cs
          rcases List.mem_cons.mp h with hdot | hdot
          · rw [show c = '+' from by simpa using h2] at hdot
            cases hdot
          · exact hdot
        · rw [if_neg h2]
          exact h
    have hall : (parseSignum (c :: cs)).2.all isDig = false := by
      refine List.all_eq_false.mpr ?_
      exact ⟨'.', hdotsgn, by decide⟩
    show (!(parseSignum (c :: cs)).2.isEmpty && (parseSignum (c :: cs)).2.all isDig) = false
    rw [hall]
    exact Bool.and_false _

theorem colImport_year (today : Today) (col : List Value)
    (h : ∀ v ∈ col, ∃ n : Int, v = .int n) :
    (colImport (col.map fun v => csvCellChars v)).map (cellCoerce today "year") = col := by
  have hcells : ∀ l ∈ col.map (fun v => csvCellChars v), isIntLikeChars l = true := by
    intro l hl
    obtain ⟨v, hv, rfl⟩ := List.mem_map.mp hl
    obtain ⟨n, rfl⟩ := h v hv
    exact isIntLikeChars_intChars n
  have hopts : (col.map fun v => csvCellChars v).map naLift
      = (col.map fun v => csvCellChars v).map some :=
    List.map_congr_left fun l hl => naLift_of_intLike l (hcells l hl)
  simp only [colImport]
  rw [hopts]
  have hpres : ((col.map fun v => csvCellChars v).map some).filterMap id
      = col.map fun v => csvCellChars v := by simp
  rw [hpres]
  have hc1 : (col.map fun v => csvCellChars v).all isIntLikeChars = true :=
    List.all_eq_true.mpr hcells
  have hc2 : ((col.map fun v => csvCellChars v).map some).all Option.isSome = true := by simp
  rw [hc1, hc2]
  simp only [Bool.and_self, if_true]
  rw [List.map_map, List.map_map, List.map_map]
  refine Eq.trans (List.map_congr_left ?_) (List.map_id col)
  intro v hv
  obtain ⟨n, rfl⟩ := h v hv
  show cellCoerce today "year" (Value.int (parseIntChars (intChars n))) = Value.int n
  rw [parseIntChars_intChars, cellCoerce_at_year, coerceYearCell_int]

theorem colImport_money (today : Today) (c : String) (col : List Value)
    (hc : c = "budget" ∨ c = "purchased_cost")
    (h : ∀ v ∈ col, ∃ q : Rat, v = .float q ∧ IsDecRat q) :
    (colImport (col.map fun v => csvCellChars v)).map (cellCoerce today c) = col := by
  have hcoe : ∀ v : Value, cellCoerce today c v = .float (coerceMoneyCell v) := by
    intro v
    rcases hc with rfl | rfl
    · exact cellCoerce_at_budget today v
    · exact cellCoerce_at_cost today v
  cases col with
  | nil => simp [colImport]
  | cons v0 rest =>
    have hcells : ∀ l ∈ (v0 :: rest).map (fun v => csvCellChars v), isFloatLikeChars l = true := by
      intro l hl
      obtain ⟨v, hv, rfl⟩ := List.mem_map.mp hl
      obtain ⟨q, rfl, hq⟩ := h v hv
      exact isFloatLikeChars_floatChars q hq
    have hopts : ((v0 :: rest).map fun v => csvCellChars v).map naLift
        = ((v0 :: rest).map fun v => csvCellChars v).map some :=
      List.map_congr_left fun l hl => naLift_of_floatLike l (hcells l hl)
    simp only [colImport]
    rw [hopts]
    have hpres : (((v0 :: rest).map fun v => csvCellChars v).map some).filterMap id
        = (v0 :: rest).map fun v => csvCellChars v := by simp
    rw [hpres]
    obtain ⟨q0, hv0, hq0⟩ := h v0 (List.mem_cons_self v0 rest)
    have hb1 : ((v0 :: rest).map fun v => csvCellChars v).all isIntLikeChars = false := by
      refine List.all_eq_false.mpr ?_
      refine ⟨csvCellChars v0, List.mem_map_of_mem _ (List.mem_cons_self v0 rest), ?_⟩
      rw [hv0]
      show ¬(isIntLikeChars (floatChars q0) = true)
      rw [dot_not_intLike _ (dot_mem_floatChars q0)]
      simp
    rw [hb1]
    have hc2 : (((v0 :: rest).map fun v => csvCellChars v).map some).all Option.isSome = true := by
      simp
    rw [hc2]
    simp only [Bool.false_and, Bool.false_eq_true, if_false]
    have hc1 : ((v0 :: rest).map fun v => csvCellChars v).all isFloatLikeChars = true :=
      List.all_eq_true.mpr hcells
    rw [hc1]
    simp only [eq_self_iff_true, if_true]
    rw [List.map_map, List.map_map, List.map_map]
    refine Eq.trans (List.map_congr_left ?_) (List.map_id (v0 :: rest))
    intro v hv
    obtain ⟨q, rfl, hq⟩ := h v hv
    show cellCoerce today c (Value.float ((parseNumericChars (floatChars q)).getD 0)) = Value.float q
    rw [parseNumericChars_floatChars q hq]
    rw [hcoe]
    rfl

theorem boolCell_facts : ∀ b : Bool,
    isBoolLikeChars (csvCellChars (Value.bool b)) = true ∧
    isIntLikeChars (csvCellChars (Value.bool b)) = false ∧
    isFloatLikeChars (csvCellChars (Value.bool b)) = false ∧
    parseBoolChars (csvCellChars (Value.bool b)) = b := by decide

theorem colImport_purchased (today : Today) (col : List Value)
    (h : ∀ v ∈ col, ∃ b : Bool, v = .bool b) :
    (colImport (col.map fun v => csvCellChars v)).map (cellCoerce today "purchased") = col := by
  cases col with
  | nil => simp [colImport]
  | cons v0 rest =>
    have hcells : ∀ l ∈ (v0 :: rest).map (fun v => csvCellChars v), isBoolLikeChars l = true := by
      intro l hl
      obtain ⟨v, hv, rfl⟩ := List.mem_map.mp hl
      obtain ⟨b, rfl⟩ := h v hv
      exact (boolCell_facts b).1
    have hopts : ((v0 :: rest).map fun v => csvCellChars v).map naLift
        = ((v0 :: rest).map fun v => csvCellChars v).map some :=
      List.map_congr_left fun l hl => naLift_of_boolLike l (hcells l hl)
    simp only [colImport]
    rw [hopts]
    have hpres : (((v0 :: rest).map fun v => csvCellChars v).map some).filterMap id
        = (v0 :: rest).map fun v => csvCellChars v := by simp
    rw [hpres]
    obtain ⟨b0, hv0⟩ := h v0 (List.mem_cons_self v0 rest)
    have hb1 : ((v0 :: rest).map fun v => csvCellChars v).all isIntLikeChars = false := by
      refine List.all_eq_false.mpr ?_
      refine ⟨csvCellChars v0, List.mem_map_of_mem _ (List.mem_cons_self v0 rest), ?_⟩
      rw [hv0]
      rw [(boolCell_facts b0).2.1]
      simp
    rw [hb1]
    have hc2 : (((v0 :: rest).map fun v => csvCellChars v).map some).all Option.isSome = true := by
      simp
    rw [hc2]
    simp only [Bool.false_and, Bool.false_eq_true, if_false]
    have hb2 : ((v0 :: rest).map fun v => csvCellChars v).all isFloatLikeChars = false := by
      refine List.all_eq_false.mpr ?_
      refine ⟨csvCellChars v0, List.mem_map_of_mem _ (List.mem_cons_self v0 rest), ?_⟩
      rw [hv0]
      rw [(boolCell_facts b0).2.2.1]
      simp
    rw [hb2]
    simp only [Bool.false_eq_true, if_false]
    have hc1 : ((v0 :: rest).map fun v => csvCellChars v).all isBoolLikeChars = true :=
      List.all_eq_true.mpr hcells
    rw [hc1]
    simp only [eq_self_iff_true, if_true]
    rw [List.map_map, List.map_map, List.map_map]
    refine Eq.trans (List.map_congr_left ?_) (List.map_id (v0 :: rest))
    intro v hv
    obtain ⟨b, rfl⟩ := h v hv
    show cellCoerce today "purchased" (Value.bool (parseBoolChars (csvCellChars (Value.bool b))))
      = Value.bool b
    rw [(boolCell_facts b).2.2.2, cellCoerce_at_purchased]
    rfl

theorem colImport_text (today : Today) (c : String) (col : List Value)
    (hcS : ∀ s, cellCoerce today c (.str s) = .str s)
    (hcN : cellCoerce today c .null = .str "")
    (h : ∀ v ∈ col, ∃ s : String, v = .str s ∧ (s.data.isEmpty = true ∨ csvPlainB s.data = true)) :
    (colImport (col.map fun v => csvCellChars v)).map (cellCoerce today c) = col := by
  by_cases hex : ∃ s : String, Value.str s ∈ col ∧ csvPlainB s.data = true
  case pos =>
    obtain ⟨s0, hs0mem, hs0pl⟩ := hex
    simp only [colImport]
    have hs0pres : s0.data ∈ ((col.map fun v => csvCellChars v).map naLift).filterMap id := by
      refine List.mem_filterMap.mpr ?_
      refine ⟨some s0.data, ?_, rfl⟩
      refine List.mem_map.mpr ?_
      refine ⟨csvCellChars (Value.str s0), List.mem_map_of_mem _ hs0mem, ?_⟩
      show naLift s0.data = some s0.data
      exact naLift_plain s0.data hs0pl
    obtain ⟨he, hint, hflt, hbool⟩ := csvPlainB_parts s0.data hs0pl
    have hb1 : (((col.map fun v => csvCellChars v).map naLift).filterMap id).all isIntLikeChars
        = false :=
      List.all_eq_false.mpr ⟨s0.data, hs0pres, by rw [hint]; simp⟩
    have hb2 : (((col.map fun v => csvCellChars v).map naLift).filterMap id).all isFloatLikeChars
        = false :=
      List.all_eq_false.mpr ⟨s0.data, hs0pres, by rw [hflt]; simp⟩
    have hb3 : (((col.map fun v => csvCellChars v).map naLift).filterMap id).all isBoolLikeChars
        = false :=
      List.all_eq_false.mpr ⟨s0.data, hs0pres, by rw [hbool]; simp⟩
    rw [hb1, hb2, hb3]
    simp only [Bool.false_and, Bool.false_eq_true, if_false]
    rw [List.map_map, List.map_map, List.map_map]
    refine Eq.trans (List.map_congr_left ?_) (List.map_id col)
    intro v hv
    obtain ⟨s, rfl, hcase⟩ := h v hv
    rcases hcase with hemp | hpl
    · have hsnil : s.data = [] := by simpa using hemp
      have hs : s = "" := by
        rw [← show String.mk s.data = s from rfl, hsnil]
      show cellCoerce today c (match naLift (csvCellChars (Value.str s)) with
        | some l => Value.str (String.mk l)
        | none => Value.null) = Value.str s
      rw [show naLift (csvCellChars (Value.str s)) = none from by
        show naLift s.data = none
        rw [hsnil]
        exact naLift_nil]
      show cellCoerce today c Value.null = Value.str s
      rw [hcN, hs]
    · show cellCoerce today c (match naLift (csvCellChars (Value.str s)) with
        | some l => Value.str (String.mk l)
        | none => Value.null) = Value.str s
      rw [show naLift (csvCellChars (Value.str s)) = some s.data from naLift_plain s.data hpl]
      show cellCoerce today c (Value.str (String.mk s.data)) = Value.str s
      rw [show String.mk s.data = s from rfl]
      exact hcS s
  case neg =>
    have hallnil : ∀ v ∈ col, v = Value.str "" := by
      intro v hv
      obtain ⟨s, rfl, hcase⟩ := h v hv
      rcases hcase with hemp | hpl
      · have hsnil : s.data = [] := by simpa using hemp
        have hs : s = "" := by
          rw [← show String.mk s.data = s from rfl, hsnil]
        rw [hs]
      · exact absurd ⟨s, hv, hpl⟩ hex
    cases col with
    | nil => simp [colImport]
    | cons v0 rest =>
      have hcells : ∀ v ∈ v0 :: rest, csvCellChars v = [] := by
        intro v hv
        rw [hallnil v hv]
        rfl
      have hopts : ((v0 :: rest).map fun v => csvCellChars v).map naLift
          = ((v0 :: rest).map fun v => csvCellChars v).map (fun _ => none) := by
        refine List.map_congr_left ?_
        intro l hl
        obtain ⟨v, hv, rfl⟩ := List.mem_map.mp hl
        rw [hcells v hv]
        exact naLift_nil
      simp only [colImport]
      rw [hopts]
      have hc2 : (((v0 :: rest).map fun v => csvCellChars v).map
          (fun _ => (none : Option (List Char)))).all Option.isSome = false := by
        refine List.all_eq_false.mpr ?_
        refine ⟨none, ?_, by simp⟩
        exact List.mem_map.mpr ⟨csvCellChars v0,
          List.mem_map_of_mem _ (List.mem_cons_self _ _), rfl⟩
      rw [hc2]
      simp only [Bool.and_false, Bool.false_eq_true, if_false]
      have hpres : ((((v0 :: rest).map fun v => csvCellChars v).map
          (fun _ => (none : Option (List Char)))).filterMap id) = [] := by
        simp
      rw [hpres]
      simp only [List.all_nil, eq_self_iff_true, if_true]
      rw [List.map_map, List.map_map, List.map_map]
      refine Eq.trans (List.map_congr_left ?_) (List.map_id (v0 :: rest))
      intro v hv
      rw [hallnil v hv]
      show cellCoerce today c Value.null = Value.str ""
      exact hcN

/-! ### Plainness of rendered cells -/

theorem needsQuote_digitChar : ∀ d, d < 10 → needsQuote (digitChar d) = false := by decide

theorem plain_renderNatChars (n : Nat) : ∀ c ∈ renderNatChars n, needsQuote c = false := by
  intro c hc
  obtain ⟨d, hd, rfl⟩ := mem_renderNatChars n c hc
  exact needsQuote_digitChar d hd

theorem plain_intChars (n : Int) : ∀ c ∈ intChars n, needsQuote c = false := by
  intro c hc
  unfold intChars at hc
  rcases List.mem_append.mp hc with h1 | h2
  · by_cases hn : n < 0
    · rw [if_pos hn] at h1
      have hc2 : c = '-' := by simpa using h1
      rw [hc2]
      decide
    · rw [if_neg hn] at h1
      cases h1
  · exact plain_renderNatChars _ c h2

theorem plain_floatChars (q : Rat) : ∀ c ∈ floatChars q, needsQuote c = false := by
  intro c hc
  rw [show floatChars q = (if q.num < 0 then ['-'] else []) ++
      renderNatChars (q.num.natAbs * 10 ^ decExp q / q.den / 10 ^ decExp q) ++
        '.' :: (List.replicate
            (decExp q -
              (renderNatChars (q.num.natAbs * 10 ^ decExp q / q.den % 10 ^ decExp q)).length) '0' ++
          renderNatChars (q.num.natAbs * 10 ^ decExp q / q.den % 10 ^ decExp q)) from rfl] at hc
  rcases List.mem_append.mp hc with h12 | h4
  · rcases List.mem_append.mp h12 with h1 | h3
    · by_cases hn : q.num < 0
      · rw [if_pos hn] at h1
        have hc2 : c = '-' := by simpa using h1
        rw [hc2]
        decide
      · rw [if_neg hn] at h1
        cases h1
    · exact plain_renderNatChars _ c h3
  · rcases List.mem_cons.mp h4 with h5 | h6
    · rw [h5]
      decide
    · rcases List.mem_append.mp h6 with h7 | h8
      · rw [List.eq_of_mem_replicate h7]
        decide
      · exact plain_renderNatChars _ c h8

theorem plain_boolChars (b : Bool) :
    ∀ c ∈ (if b then "True".data else "False".data), needsQuote c = false := by
  cases b <;> decide

theorem csvPlainB_noQuote (l : List Char) (h : csvPlainB l = true) :
    ∀ c ∈ l, needsQuote c = false := by
  unfold csvPlainB at h
  simp only [Bool.and_eq_true, List.all_eq_true, Bool.not_eq_true'] at h
  exact h.2

/-! ### Rendered lines: membership, nonemptiness -/

theorem mem_joinComma :
    ∀ (fs : List (List Char)) (c : Char), c ∈ joinComma fs → c = ',' ∨ ∃ f ∈ fs, c ∈ f := by
  intro fs
  induction fs with
  | nil =>
    intro c hc
    cases hc
  | cons f fs ih =>
    intro c hc
    cases fs with
    | nil =>
      right
      exact ⟨f, List.mem_cons_self _ _, hc⟩
    | cons g rest =>
      rw [show joinComma (f :: g :: rest) = f ++ ',' :: joinComma (g :: rest) from rfl] at hc
      rcases List.mem_append.mp hc with h1 | h2
      · right
        exact ⟨f, List.mem_cons_self _ _, h1⟩
      · rcases List.mem_cons.mp h2 with h3 | h4
        · left
          exact h3
        · rcases ih c h4 with h5 | ⟨f2, hf2, hc2⟩
          · left
            exact h5
          · right
            exact ⟨f2, List.mem_cons_of_mem _ hf2, hc2⟩

theorem quoteField_eq_of_plain (f : List Char) (h : ∀ c ∈ f, needsQuote c = false) :
    quoteField f = f := by
  unfold quoteField
  rw [if_neg]
  intro hq
  simp only [List.any_eq_true] at hq
  obtain ⟨c, hc, hq2⟩ := hq
  rw [h c hc] at hq2
  cases hq2

theorem renderLine_plain (fields : List (List Char))
    (h : ∀ f ∈ fields, ∀ c ∈ f, needsQuote c = false) :
    renderLineChars fields = joinComma fields := by
  unfold renderLineChars
  refine congrArg joinComma ?_
  calc fields.map quoteField = fields.map id :=
        List.map_congr_left fun f hf => quoteField_eq_of_plain f (h f hf)
    _ = fields := List.map_id fields

theorem renderLine_no_nl (fields : List (List Char))
    (h : ∀ f ∈ fields, ∀ c ∈ f, needsQuote c = false) :
    '\n' ∉ renderLineChars fields ∧ '\r' ∉ renderLineChars fields := by
  rw [renderLine_plain fields h]
  constructor
  · intro hc
    rcases mem_joinComma fields _ hc with h1 | ⟨f, hf, hc2⟩
    · exact absurd h1 (by decide)
    · exact absurd (h f hf _ hc2) (by decide)
  · intro hc
    rcases mem_joinComma fields _ hc with h1 | ⟨f, hf, hc2⟩
    · exact absurd h1 (by decide)
    · exact absurd (h f hf _ hc2) (by decide)

theorem renderLine_ne_nil (f g : List Char) (rest : List (List Char)) :
    renderLineChars (f :: g :: rest) ≠ [] := by
  show joinComma (quoteField f :: quoteField g :: rest.map quoteField) ≠ []
  show quoteField f ++ ',' :: joinComma (quoteField g :: rest.map quoteField) ≠ []
  simp

theorem not_isEmpty_of_ne {α : Type} (l : List α) (h : l ≠ []) : (!l.isEmpty) = true := by
  cases l with
  | nil => exact absurd rfl h
  | cons a as => rfl

theorem getD_mem_of_lt {α : Type} : ∀ (l : List α) (i : Nat) (d : α), i < l.length →
    l.getD i d ∈ l := by
  intro l
  induction l with
  | nil =>
    intro i d hi
    cases hi
  | cons a as ih =>
    intro i d hi
    cases i with
    | zero => exact List.mem_cons_self _ _
    | succ i =>
      rw [List.getD_cons_succ]
      exact List.mem_cons_of_mem a (ih i d (by simpa using Nat.lt_of_succ_lt_succ hi))

/-! ### Cell classifiers of a round-trippable ledger -/

theorem cellStrPlain_elim (v : Value) (h : cellStrPlain v = true) :
    ∃ s : String, v = .str s ∧ (s.data.isEmpty = true ∨ csvPlainB s.data = true) := by
  cases v with
  | null => simp [cellStrPlain] at h
  | str s =>
    refine ⟨s, rfl, ?_⟩
    have h2 : (s.data.isEmpty || csvPlainB s.data) = true := h
    simpa using h2
  | int n => simp [cellStrPlain] at h
  | float q => simp [cellStrPlain] at h
  | bool b => simp [cellStrPlain] at h

theorem cellInt_elim (v : Value) (h : cellInt v = true) : ∃ n : Int, v = .int n := by
  cases v with
  | null => simp [cellInt] at h
  | str s => simp [cellInt] at h
  | int n => exact ⟨n, rfl⟩
  | float q => simp [cellInt] at h
  | bool b => simp [cellInt] at h

theorem cellDecFloat_elim (v : Value) (h : cellDecFloat v = true) :
    ∃ q : Rat, v = .float q ∧ IsDecRat q := by
  cases v with
  | null => simp [cellDecFloat] at h
  | str s => simp [cellDecFloat] at h
  | int n => simp [cellDecFloat] at h
  | float q =>
    refine ⟨q, rfl, ?_⟩
    have h2 : decide (IsDecRat q) = true := h
    exact of_decide_eq_true h2
  | bool b => simp [cellDecFloat] at h

theorem cellBool_elim (v : Value) (h : cellBool v = true) : ∃ b : Bool, v = .bool b := by
  cases v with
  | null => simp [cellBool] at h
  | str s => simp [cellBool] at h
  | int n => simp [cellBool] at h
  | float q => simp [cellBool] at h
  | bool b => exact ⟨b, rfl⟩

theorem cellStrPlain_plain (v : Value) (h : cellStrPlain v = true) :
    ∀ c ∈ csvCellChars v, needsQuote c = false := by
  obtain ⟨s, rfl, hcase⟩ := cellStrPlain_elim v h
  intro c hc
  have hc2 : c ∈ s.data := hc
  rcases hcase with h3 | h4
  · rw [List.isEmpty_iff] at h3
    rw [h3] at hc2
    cases hc2
  · exact csvPlainB_noQuote s.data h4 c hc2

theorem cellInt_plain (v : Value) (h : cellInt v = true) :
    ∀ c ∈ csvCellChars v, needsQuote c = false := by
  obtain ⟨n, rfl⟩ := cellInt_elim v h
  exact plain_intChars n

theorem cellDecFloat_plain (v : Value) (h : cellDecFloat v = true) :
    ∀ c ∈ csvCellChars v, needsQuote c = false := by
  obtain ⟨q, rfl, _⟩ := cellDecFloat_elim v h
  exact plain_floatChars q

theorem cellBool_plain (v : Value) (h : cellBool v = true) :
    ∀ c ∈ csvCellChars v, needsQuote c = false := by
  obtain ⟨b, rfl⟩ := cellBool_elim v h
  exact plain_boolChars b

/-! ### Coercion is the identity on declared cells -/

theorem mapCoerce_str (today : Today) (c : String) (col : List Value)
    (hcS : ∀ s, cellCoerce today c (.str s) = .str s)
    (h : ∀ v ∈ col, ∃ s : String, v = .str s) :
    col.map (cellCoerce today c) = col := by
  refine Eq.trans (List.map_congr_left ?_) (List.map_id col)
  intro v hv
  obtain ⟨s, rfl⟩ := h v hv
  exact hcS s

theorem mapCoerce_int (today : Today) (col : List Value)
    (h : ∀ v ∈ col, ∃ n : Int, v = .int n) :
    col.map (cellCoerce today "year") = col := by
  refine Eq.trans (List.map_congr_left ?_) (List.map_id col)
  intro v hv
  obtain ⟨n, rfl⟩ := h v hv
  rw [cellCoerce_at_year, coerceYearCell_int]
  rfl

theorem mapCoerce_float (today : Today) (c : String) (col : List Value)
    (hc : c = "budget" ∨ c = "purchased_cost")
    (h : ∀ v ∈ col, ∃ q : Rat, v = .float q) :
    col.map (cellCoerce today c) = col := by
  refine Eq.trans (List.map_congr_left ?_) (List.map_id col)
  intro v hv
  obtain ⟨q, rfl⟩ := h v hv
  rcases hc with rfl | rfl
  · rw [cellCoerce_at_budget]
    rfl
  · rw [cellCoerce_at_cost]
    rfl

theorem mapCoerce_bool (today : Today) (col : List Value)
    (h : ∀ v ∈ col, ∃ b : Bool, v = .bool b) :
    col.map (cellCoerce today "purchased") = col := by
  refine Eq.trans (List.map_congr_left ?_) (List.map_id col)
  intro v hv
  obtain ⟨b, rfl⟩ := h v hv
  rw [cellCoerce_at_purchased]
  rfl

theorem ensure_df_ofCols (today : Today) (lc : LedgerCols) (hok : lc.roundTrippable) :
    ensure_df today (Table.ofCols lc) = Table.ofCols lc := by
  obtain ⟨hdate, hyear, hrec, hocc, hidea, hbud, hpur, hcost⟩ := hok
  have key : addMissingCols today (Table.ofCols lc).nrows COLUMNS (Table.ofCols lc)
      = Table.ofCols lc :=
    addMissingCols_of_subset today _ COLUMNS _ (fun c hc => hc)
  have step1 : ensure_df today (Table.ofCols lc)
      = Table.mk COLUMNS (COLUMNS.map fun c =>
          (((addMissingCols today (Table.ofCols lc).nrows COLUMNS (Table.ofCols lc)).colQ c).getD
            []).map (cellCoerce today c)) := rfl
  rw [step1, key]
  show Table.mk COLUMNS (COLUMNS.map fun c =>
      (((Table.ofCols lc).colQ c).getD []).map (cellCoerce today c))
    = Table.mk COLUMNS [lc.dateC, lc.yearC, lc.recC, lc.occC, lc.ideaC, lc.budC, lc.purC, lc.costC]
  refine congrArg (Table.mk COLUMNS) ?_
  simp only [COLUMNS, List.map_cons, List.map_nil, List.cons.injEq, and_true]
  refine ⟨?_, ?_, ?_, ?_, ?_, ?_, ?_, ?_⟩
  · rw [show (Table.ofCols lc).colQ "date" = some lc.dateC from rfl, Option.getD_some]
    exact mapCoerce_str today "date" lc.dateC
      (fun s => by rw [cellCoerce_at_date]; rfl)
      (fun v hv => (cellStrPlain_elim v (List.all_eq_true.mp hdate v hv)).elim
        fun s hs => ⟨s, hs.1⟩)
  · rw [show (Table.ofCols lc).colQ "year" = some lc.yearC from rfl, Option.getD_some]
    exact mapCoerce_int today lc.yearC
      (fun v hv => cellInt_elim v (List.all_eq_true.mp hyear v hv))
  · rw [show (Table.ofCols lc).colQ "recipient" = some lc.recC from rfl, Option.getD_some]
    exact mapCoerce_str today "recipient" lc.recC
      (fun s => by rw [cellCoerce_at_recipient]; rfl)
      (fun v hv => (cellStrPlain_elim v (List.all_eq_true.mp hrec v hv)).elim
        fun s hs => ⟨s, hs.1⟩)
  · rw [show (Table.ofCols lc).colQ "occasion" = some lc.occC from rfl, Option.getD_some]
    exact mapCoerce_str today "occasion" lc.occC
      (fun s => by rw [cellCoerce_at_occasion]; rfl)
      (fun v hv => (cellStrPlain_elim v (List.all_eq_true.mp hocc v hv)).elim
        fun s hs => ⟨s, hs.1⟩)
  · rw [show (Table.ofCols lc).colQ "idea" = some lc.ideaC from rfl, Option.getD_some]
    exact mapCoerce_str today "idea" lc.ideaC
      (fun s => by rw [cellCoerce_at_idea]; rfl)
      (fun v hv => (cellStrPlain_elim v (List.all_eq_true.mp hidea v hv)).elim
        fun s hs => ⟨s, hs.1⟩)
  · rw [show (Table.ofCols lc).colQ "budget" = some lc.budC from rfl, Option.getD_some]
    exact mapCoerce_float today "budget" lc.budC (Or.inl rfl)
      (fun v hv => (cellDecFloat_elim v (List.all_eq_true.mp hbud v hv)).elim
        fun q hq => ⟨q, hq.1⟩)
  · rw [show (Table.ofCols lc).colQ "purchased" = some lc.purC from rfl, Option.getD_some]
    exact mapCoerce_bool today lc.purC
      (fun v hv => cellBool_elim v (List.all_eq_true.mp hpur v hv))
  · rw [show (Table.ofCols lc).colQ "purchased_cost" = some lc.costC from rfl, Option.getD_some]
    exact mapCoerce_float today "purchased_cost" lc.costC (Or.inr rfl)
      (fun v hv => (cellDecFloat_elim v (List.all_eq_true.mp hcost v hv)).elim
        fun q hq => ⟨q, hq.1⟩)

theorem rowsF_col (lc : LedgerCols) (j : Nat) (colX : List Value)
    (hj : (Table.ofCols lc).columns.getD j [] = colX)
    (hjlt : j < 8)
    (hlenX : colX.length = lc.dateC.length) :
    ((List.range (Table.ofCols lc).nrows).map fun i =>
        (Table.ofCols lc).columns.map fun col => csvCellChars (col.getD i .null)).map
      (fun r => r.getD j []) = colX.map fun v => csvCellChars v := by
  rw [List.map_map]
  have h1 : (List.range (Table.ofCols lc).nrows).map
      ((fun r => r.getD j ([] : List Char)) ∘ fun i =>
        (Table.ofCols lc).columns.map fun col => csvCellChars (col.getD i .null))
      = (List.range (Table.ofCols lc).nrows).map fun i => csvCellChars (colX.getD i .null) := by
    refine List.map_congr_left fun i hi => ?_
    show ((Table.ofCols lc).columns.map fun col => csvCellChars (col.getD i .null)).getD j []
      = csvCellChars (colX.getD i .null)
    rw [getD_map_lt (fun col => csvCellChars (col.getD i .null)) (Table.ofCols lc).columns j [] []
      (show j < ((Table.ofCols lc).columns).length from hjlt)]
    rw [hj]
  refine Eq.trans h1 ?_
  rw [show (Table.ofCols lc).nrows = lc.dateC.length from rfl, ← hlenX]
  exact range_map_getD (fun v => csvCellChars v) Value.null colX

theorem read_csv_render (hdrF : List (List Char)) (rowsF : List (List (List Char)))
    (hplainH : ∀ f ∈ hdrF, ∀ c ∈ f, needsQuote c = false)
    (hne0 : hdrF ≠ [])
    (hneH : renderLineChars hdrF ≠ [])
    (hplainR : ∀ r ∈ rowsF, ∀ f ∈ r, ∀ c ∈ f, needsQuote c = false)
    (hneR : ∀ r ∈ rowsF, r ≠ [])
    (hneRL : ∀ r ∈ rowsF, renderLineChars r ≠ [])
    (hlenR : ∀ r ∈ rowsF, r.length ≤ hdrF.length) :
    read_csv (String.mk (joinLines (renderLineChars hdrF :: rowsF.map renderLineChars)))
      = some (Table.mk (hdrF.map String.mk)
          ((List.range hdrF.length).map fun j => colImport (rowsF.map fun r => r.getD j []))) := by
  have hnl : ∀ l ∈ renderLineChars hdrF :: rowsF.map renderLineChars, '\n' ∉ l := by
    intro l hl
    rcases List.mem_cons.mp hl with rfl | h2
    · exact (renderLine_no_nl hdrF hplainH).1
    · obtain ⟨r, hr, rfl⟩ := List.mem_map.mp h2
      exact (renderLine_no_nl r (hplainR r hr)).1
  have hcr : ∀ l ∈ renderLineChars hdrF :: rowsF.map renderLineChars, '\r' ∉ l := by
    intro l hl
    rcases List.mem_cons.mp hl with rfl | h2
    · exact (renderLine_no_nl hdrF hplainH).2
    · obtain ⟨r, hr, rfl⟩ := List.mem_map.mp h2
      exact (renderLine_no_nl r (hplainR r hr)).2
  have hnn : ∀ l ∈ renderLineChars hdrF :: rowsF.map renderLineChars, l ≠ [] := by
    intro l hl
    rcases List.mem_cons.mp hl with rfl | h2
    · exact hneH
    · obtain ⟨r, hr, rfl⟩ := List.mem_map.mp h2
      exact hneRL r hr
  have hsplit : ((splitOnChar '\n'
        (String.mk (joinLines (renderLineChars hdrF :: rowsF.map renderLineChars))).data).map
        dropCR).filter (fun l => !l.isEmpty)
      = renderLineChars hdrF :: rowsF.map renderLineChars := by
    rw [show (String.mk (joinLines (renderLineChars hdrF :: rowsF.map renderLineChars))).data
        = joinLines (renderLineChars hdrF :: rowsF.map renderLineChars) from rfl]
    rw [splitOnChar_joinLines _ hnl]
    rw [List.map_append]
    have hL : (renderLineChars hdrF :: rowsF.map renderLineChars).map dropCR
        = renderLineChars hdrF :: rowsF.map renderLineChars := by
      refine Eq.trans (List.map_congr_left ?_) (List.map_id _)
      intro l hl
      exact dropCR_no_cr l (hcr l hl)
    rw [hL]
    rw [show ([([] : List Char)].map dropCR) = [[]] from rfl]
    rw [List.filter_append]
    have hF : (renderLineChars hdrF :: rowsF.map renderLineChars).filter (fun l => !l.isEmpty)
        = renderLineChars hdrF :: rowsF.map renderLineChars := by
      refine List.filter_eq_self.mpr ?_
      intro l hl
      exact not_isEmpty_of_ne l (hnn l hl)
    rw [hF]
    rw [show (([([] : List Char)]).filter fun l => !l.isEmpty) = [] from rfl]
    rw [List.append_nil]
  have hparseA : parseAllLines (rowsF.map renderLineChars) = some rowsF :=
    parseAllLines_render rowsF (fun r hr => ⟨hplainR r hr, hneR r hr⟩)
  have hparseH : parseLineChars (renderLineChars hdrF) = some hdrF :=
    parseLine_render hdrF hplainH hne0
  simp only [read_csv]
  rw [hsplit]
  show (match parseLineChars (renderLineChars hdrF), parseAllLines (rowsF.map renderLineChars) with
    | some hdr, some rows =>
      if rows.all (fun r => r.length ≤ hdr.length) then
        some (Table.mk (hdr.map String.mk)
          ((List.range hdr.length).map fun j => colImport (rows.map fun r => r.getD j [])))
      else none
    | _, _ => none)
    = some (Table.mk (hdrF.map String.mk)
        ((List.range hdrF.length).map fun j => colImport (rowsF.map fun r => r.getD j [])))
  rw [hparseH, hparseA]
  have hcond : rowsF.all (fun r => decide (r.length ≤ hdrF.length)) = true :=
    List.all_eq_true.mpr fun r hr => decide_eq_true (hlenR r hr)
  show (if rowsF.all (fun r => r.length ≤ hdrF.length) then
      some (Table.mk (hdrF.map String.mk)
        ((List.range hdrF.length).map fun j => colImport (rowsF.map fun r => r.getD j [])))
    else none)
    = some (Table.mk (hdrF.map String.mk)
        ((List.range hdrF.length).map fun j => colImport (rowsF.map fun r => r.getD j [])))
  rw [if_pos hcond]

theorem read_csv_ofCols (lc : LedgerCols) (hrect : lc.rect)
    (hplain : ∀ col ∈ (Table.ofCols lc).columns, ∀ v ∈ col, ∀ c ∈ csvCellChars v,
      needsQuote c = false) :
    read_csv (download_csv (Table.ofCols lc)) = some (importTable lc) := by
  obtain ⟨hr1, hr2, hr3, hr4, hr5, hr6, hr7⟩ := hrect
  have hlen : ∀ col ∈ (Table.ofCols lc).columns, col.length = lc.dateC.length := by
    intro col hcol
    simp only [Table.ofCols, List.mem_cons, List.not_mem_nil, or_false] at hcol
    rcases hcol with rfl | rfl | rfl | rfl | rfl | rfl | rfl | rfl
    · rfl
    · exact hr1
    · exact hr2
    · exact hr3
    · exact hr4
    · exact hr5
    · exact hr6
    · exact hr7
  have hplainR : ∀ r ∈ (List.range (Table.ofCols lc).nrows).map (fun i =>
        (Table.ofCols lc).columns.map fun col => csvCellChars (col.getD i .null)),
      ∀ f ∈ r, ∀ c ∈ f, needsQuote c = false := by
    intro r hr f hf c hc
    obtain ⟨i, hi, rfl⟩ := List.mem_map.mp hr
    obtain ⟨col, hcol, rfl⟩ := List.mem_map.mp hf
    have hi2 : i < lc.dateC.length := List.mem_range.mp hi
    have hmem : col.getD i .null ∈ col :=
      getD_mem_of_lt col i .null (by rw [hlen col hcol]; exact hi2)
    exact hplain col hcol _ hmem c hc
  have hneR : ∀ r ∈ (List.range (Table.ofCols lc).nrows).map (fun i =>
        (Table.ofCols lc).columns.map fun col => csvCellChars (col.getD i .null)), r ≠ [] := by
    intro r hr
    obtain ⟨i, hi, rfl⟩ := List.mem_map.mp hr
    exact List.cons_ne_nil _ _
  have hneRL : ∀ r ∈ (List.range (Table.ofCols lc).nrows).map (fun i =>
        (Table.ofCols lc).columns.map fun col => csvCellChars (col.getD i .null)),
      renderLineChars r ≠ [] := by
    intro r hr
    obtain ⟨i, hi, rfl⟩ := List.mem_map.mp hr
    exact renderLine_ne_nil _ _ _
  have hlenR : ∀ r ∈ (List.range (Table.ofCols lc).nrows).map (fun i =>
        (Table.ofCols lc).columns.map fun col => csvCellChars (col.getD i .null)),
      r.length ≤ (COLUMNS.map String.data).length := by
    intro r hr
    obtain ⟨i, hi, rfl⟩ := List.mem_map.mp hr
    exact Nat.le_refl 8
  have hdl : download_csv (Table.ofCols lc)
      = String.mk (joinLines (renderLineChars (COLUMNS.map String.data) ::
          ((List.range (Table.ofCols lc).nrows).map fun i =>
            (Table.ofCols lc).columns.map fun col => csvCellChars (col.getD i .null)).map
            renderLineChars)) := by
    refine congrArg
      (fun z => String.mk (joinLines (renderLineChars (COLUMNS.map String.data) :: z))) ?_
    show (List.range (Table.ofCols lc).nrows).map (fun i =>
        renderLineChars ((Table.ofCols lc).columns.map fun col => csvCellChars (col.getD i .null)))
      = ((List.range (Table.ofCols lc).nrows).map fun i =>
          (Table.ofCols lc).columns.map fun col => csvCellChars (col.getD i .null)).map
          renderLineChars
    rw [List.map_map]
    rfl
  rw [hdl]
  rw [read_csv_render (COLUMNS.map String.data) _ (by decide) (by decide) (by decide)
    hplainR hneR hneRL hlenR]
  refine congrArg some ?_
  show Table.mk COLUMNS ((List.range 8).map fun j => colImport
      (((List.range (Table.ofCols lc).nrows).map fun i =>
        (Table.ofCols lc).columns.map fun col => csvCellChars (col.getD i .null)).map
        fun r => r.getD j []))
    = Table.mk COLUMNS
      [colImport (lc.dateC.map fun v => csvCellChars v),
       colImport (lc.yearC.map fun v => csvCellChars v),
       colImport (lc.recC.map fun v => csvCellChars v),
       colImport (lc.occC.map fun v => csvCellChars v),
       colImport (lc.ideaC.map fun v => csvCellChars v),
       colImport (lc.budC.map fun v => csvCellChars v),
       colImport (lc.purC.map fun v => csvCellChars v),
       colImport (lc.costC.map fun v => csvCellChars v)]
  refine congrArg (Table.mk COLUMNS) ?_
  rw [show List.range 8 = [0, 1, 2, 3, 4, 5, 6, 7] from rfl]
  simp only [List.map_cons, List.map_nil, List.cons.injEq, and_true]
  refine ⟨?_, ?_, ?_, ?_, ?_, ?_, ?_, ?_⟩
  · exact congrArg colImport (rowsF_col lc 0 lc.dateC rfl (by decide) rfl)
  · exact congrArg colImport (rowsF_col lc 1 lc.yearC rfl (by decide) hr1)
  · exact congrArg colImport (rowsF_col lc 2 lc.recC rfl (by decide) hr2)
  · exact congrArg colImport (rowsF_col lc 3 lc.occC rfl (by decide) hr3)
  · exact congrArg colImport (rowsF_col lc 4 lc.ideaC rfl (by decide) hr4)
  · exact congrArg colImport (rowsF_col lc 5 lc.budC rfl (by decide) hr5)
  · exact congrArg colImport (rowsF_col lc 6 lc.purC rfl (by decide) hr6)
  · exact congrArg colImport (rowsF_col lc 7 lc.costC rfl (by decide) hr7)

theorem ensure_df_import (today : Today) (lc : LedgerCols) (hok : lc.roundTrippable) :
    ensure_df today (importTable lc) = Table.ofCols lc := by
  obtain ⟨hdate, hyear, hrec, hocc, hidea, hbud, hpur, hcost⟩ := hok
  have key : addMissingCols today (importTable lc).nrows COLUMNS (importTable lc)
      = importTable lc :=
    addMissingCols_of_subset today _ COLUMNS _ (fun c hc => hc)
  have step1 : ensure_df today (importTable lc)
      = Table.mk COLUMNS (COLUMNS.map fun c =>
          (((addMissingCols today (importTable lc).nrows COLUMNS (importTable lc)).colQ c).getD
            []).map (cellCoerce today c)) := rfl
  rw [step1, key]
  show Table.mk COLUMNS (COLUMNS.map fun c =>
      (((importTable lc).colQ c).getD []).map (cellCoerce today c))
    = Table.mk COLUMNS [lc.dateC, lc.yearC, lc.recC, lc.occC, lc.ideaC, lc.budC, lc.purC, lc.costC]
  refine congrArg (Table.mk COLUMNS) ?_
  simp only [COLUMNS, List.map_cons, List.map_nil, List.cons.injEq, and_true]
  refine ⟨?_, ?_, ?_, ?_, ?_, ?_, ?_, ?_⟩
  · rw [show (importTable lc).colQ "date"
        = some (colImport (lc.dateC.map fun v => csvCellChars v)) from rfl, Option.getD_some]
    exact colImport_text today "date" lc.dateC
      (fun s => by rw [cellCoerce_at_date]; rfl)
      (by rw [cellCoerce_at_date]; rfl)
      (fun v hv => cellStrPlain_elim v (List.all_eq_true.mp hdate v hv))
  · rw [show (importTable lc).colQ "year"
        = some (colImport (lc.yearC.map fun v => csvCellChars v)) from rfl, Option.getD_some]
    exact colImport_year today lc.yearC
      (fun v hv => cellInt_elim v (List.all_eq_true.mp hyear v hv))
  · rw [show (importTable lc).colQ "recipient"
        = some (colImport (lc.recC.map fun v => csvCellChars v)) from rfl, Option.getD_some]
    exact colImport_text today "recipient" lc.recC
      (fun s => by rw [cellCoerce_at_recipient]; rfl)
      (by rw [cellCoerce_at_recipient]; rfl)
      (fun v hv => cellStrPlain_elim v (List.all_eq_true.mp hrec v hv))
  · rw [show (importTable lc).colQ "occasion"
        = some (colImport (lc.occC.map fun v => csvCellChars v)) from rfl, Option.getD_some]
    exact colImport_text today "occasion" lc.occC
      (fun s => by rw [cellCoerce_at_occasion]; rfl)
      (by rw [cellCoerce_at_occasion]; rfl)
      (fun v hv => cellStrPlain_elim v (List.all_eq_true.mp hocc v hv))
  · rw [show (importTable lc).colQ "idea"
        = some (colImport (lc.ideaC.map fun v => csvCellChars v)) from rfl, Option.getD_some]
    exact colImport_text today "idea" lc.ideaC
      (fun s => by rw [cellCoerce_at_idea]; rfl)
      (by rw [cellCoerce_at_idea]; rfl)
      (fun v hv => cellStrPlain_elim v (List.all_eq_true.mp hidea v hv))
  · rw [show (importTable lc).colQ "budget"
        = some (colImport (lc.budC.map fun v => csvCellChars v)) from rfl, Option.getD_some]
    exact colImport_money today "budget" lc.budC (Or.inl rfl)
      (fun v hv => cellDecFloat_elim v (List.all_eq_true.mp hbud v hv))
  · rw [show (importTable lc).colQ "purchased"
        = some (colImport (lc.purC.map fun v => csvCellChars v)) from rfl, Option.getD_some]
    exact colImport_purchased today lc.purC
      (fun v hv => cellBool_elim v (List.all_eq_true.mp hpur v hv))
  · rw [show (importTable lc).colQ "purchased_cost"
        = some (colImport (lc.costC.map fun v => csvCellChars v)) from rfl, Option.getD_some]
    exact colImport_money today "purchased_cost" lc.costC (Or.inr rfl)
      (fun v hv => cellDecFloat_elim v (List.all_eq_true.mp hcost v hv))

/-- C3: export then import is a round trip — the version the code satisfies.
For every rectangular ledger whose columns have the declared types, whose
date and text cells are empty or CSV-plain strings, and whose money cells
are finite decimals, `import_csv (download_csv L)` succeeds with exactly
`L`, which is its own normalization. -/
theorem C3_roundtrip (today : Today) (lc : LedgerCols) (hrect : lc.rect)
    (hok : lc.roundTrippable) :
    import_csv today (download_csv (Table.ofCols lc)) = some (Table.ofCols lc) ∧
      ensure_df today (Table.ofCols lc) = Table.ofCols lc := by
  have hfix := ensure_df_ofCols today lc hok
  have himp := ensure_df_import today lc hok
  obtain ⟨hdate, hyear, hrec, hocc, hidea, hbud, hpur, hcost⟩ := hok
  refine ⟨?_, hfix⟩
  have hplain : ∀ col ∈ (Table.ofCols lc).columns, ∀ v ∈ col, ∀ c ∈ csvCellChars v,
      needsQuote c = false := by
    intro col hcol
    simp only [Table.ofCols, List.mem_cons, List.not_mem_nil, or_false] at hcol
    rcases hcol with rfl | rfl | rfl | rfl | rfl | rfl | rfl | rfl
    · exact fun v hv => cellStrPlain_plain v (List.all_eq_true.mp hdate v hv)
    · exact fun v hv => cellInt_plain v (List.all_eq_true.mp hyear v hv)
    · exact fun v hv => cellStrPlain_plain v (List.all_eq_true.mp hrec v hv)
    · exact fun v hv => cellStrPlain_plain v (List.all_eq_true.mp hocc v hv)
    · exact fun v hv => cellStrPlain_plain v (List.all_eq_true.mp hidea v hv)
    · exact fun v hv => cellDecFloat_plain v (List.all_eq_true.mp hbud v hv)
    · exact fun v hv => cellBool_plain v (List.all_eq_true.mp hpur v hv)
    · exact fun v hv => cellDecFloat_plain v (List.all_eq_true.mp hcost v hv)
  have hread := read_csv_ofCols lc hrect hplain
  show (read_csv (download_csv (Table.ofCols lc))).map (ensure_df today)
    = some (Table.ofCols lc)
  rw [hread]
  rw [show (some (importTable lc)).map (ensure_df today)
      = some (ensure_df today (importTable lc)) from rfl]
  exact congrArg some himp

/-- Witness for C3 at a concrete one-record ledger. -/
theorem C3_roundtrip_witness :
    lcW.rect ∧ lcW.roundTrippable ∧
      (import_csv T26 (download_csv (Table.ofCols lcW)) = some (Table.ofCols lcW) ∧
        ensure_df T26 (Table.ofCols lcW) = Table.ofCols lcW) :=
  ⟨by decide, by decide, C3_roundtrip T26 lcW (by decide) (by decide)⟩

/-- The round trip is NOT the identity on every normalized ledger: the
normalized frame holding the recipient string "nan" survives `ensure_df`
verbatim, but after export and re-import that cell is an NA and comes back
as the empty string. -/
theorem C3_counterexample :
    import_csv T26 (download_csv (ensure_df T26 tN)) ≠ some (ensure_df T26 tN) ∧
      (ensure_df T26 tN).colQ "recipient" = some [Value.str "nan"] ∧
      (import_csv T26 (download_csv (ensure_df T26 tN))).map (fun t => t.colQ "recipient")
        = some (some [Value.str ""]) := by
  refine ⟨by decide, by decide, by decide⟩

end GiftTracker
